import Mathlib

/-!
Verification of the TeddyCloudPlugins ESP32 firmware editor core
(src/plugins/ESP32FirmwareEditor/esp32-parser.js).

The JavaScript source is shallowly embedded: JS Uint8Array values become
List Nat (each entry a byte value), machine integers become Nat with
explicit masking (x & 0xFF is modelled as x % 256, identical for byte
values), async functions whose suspension points are only external I/O
callbacks become pure functions parameterized by a pure model of the
callback, and fallible code returns Except.  Loops whose JS form is
while-loops are written with an explicit fuel argument set to a bound
that the JS loop provably never exceeds (each iteration advances the
position by at least one byte, see the per-definition comments).
-/

namespace ESP32

/-- Model of one cached segment: the JS object { address, data } used in
SparseImage.readBuffer / SparseImage.writeBuffer. -/
structure Segment where
  address : Nat
  data : List Nat
deriving Repr, DecidableEq

/-- End address of a segment (one past its last byte), the JS expression
segment.address + segment.data.length. -/
def Segment.stop (s : Segment) : Nat := s.address + s.data.length

/-- Whether a segment covers an address, the JS condition
address >= segment.address && address < endAddress in _findSegment. -/
def Segment.covers (s : Segment) (p : Nat) : Bool :=
  decide (s.address ≤ p) && decide (p < s.stop)

/-- Byte stored by a segment at an absolute address (meaningful only when
s.covers p); segment.data[p - segment.address]. -/
def Segment.val (s : Segment) (p : Nat) : Nat := s.data.getD (p - s.address) 0

/-- SparseImage._findSegment: first segment in list order containing the
address. -/
def findSegment (p : Nat) : List Segment → Option Segment
  | [] => none
  | s :: t => if s.covers p then some s else findSegment p t

/-- SparseImage._isRangeCovered: walk from checkPos, jumping to the end of
each covering segment.  The JS while-loop terminates because a covering
segment always ends strictly after the current position, so the position
advances by at least one per iteration; the fuel argument, set to the range
length by the wrapper below, therefore never runs out while the position is
still inside the range (the fuel-zero case only answers the final
position-past-end check). -/
def coveredFromAux (list : List Segment) (endAddress : Nat) :
    Nat → Nat → Bool
  | 0, checkPos => decide (endAddress ≤ checkPos)
  | fuel + 1, checkPos =>
    if checkPos < endAddress then
      match findSegment checkPos list with
      | none => false
      | some seg => coveredFromAux list endAddress fuel seg.stop
    else true

def coveredFrom (list : List Segment) (checkPos endAddress : Nat) : Bool :=
  coveredFromAux list endAddress (endAddress - checkPos) checkPos

/-- SparseImage._isRangeCoveredAny: like coveredFrom but accepting coverage
from the write buffer (checked first) or the read buffer; same fuel
discipline. -/
def coveredAnyFromAux (wb rb : List Segment) (endAddress : Nat) :
    Nat → Nat → Bool
  | 0, pos => decide (endAddress ≤ pos)
  | fuel + 1, pos =>
    if pos < endAddress then
      match findSegment pos wb with
      | some w => coveredAnyFromAux wb rb endAddress fuel (min endAddress w.stop)
      | none =>
        match findSegment pos rb with
        | some r => coveredAnyFromAux wb rb endAddress fuel (min endAddress r.stop)
        | none => false
    else true

def coveredAnyFrom (wb rb : List Segment) (pos endAddress : Nat) : Bool :=
  coveredAnyFromAux wb rb endAddress (endAddress - pos) pos

/-- Smallest segment start strictly greater than pos (but below the running
bound), the JS for-loops inside _findFirstGapRange that shrink nextStart. -/
def nextSegStart (pos : Nat) (l : List Segment) (bound : Nat) : Nat :=
  l.foldl (fun nb s => if s.address > pos && s.address < nb then s.address else nb) bound

/-- SparseImage._findFirstGapRange: first sub-range of [pos, endAddress)
covered by neither buffer, as (start, size); same fuel discipline as
coveredFromAux. -/
def findFirstGapRangeAux (wb rb : List Segment) (endAddress : Nat) :
    Nat → Nat → Option (Nat × Nat)
  | 0, _ => none
  | fuel + 1, pos =>
    if pos < endAddress then
      match findSegment pos wb with
      | some w => findFirstGapRangeAux wb rb endAddress fuel (min endAddress w.stop)
      | none =>
        match findSegment pos rb with
        | some r => findFirstGapRangeAux wb rb endAddress fuel (min endAddress r.stop)
        | none =>
          let nextStart := nextSegStart pos rb (nextSegStart pos wb endAddress)
          some (pos, nextStart - pos)
    else none

def findFirstGapRange (wb rb : List Segment) (pos endAddress : Nat) :
    Option (Nat × Nat) :=
  findFirstGapRangeAux wb rb endAddress (endAddress - pos) pos

/-- Model of Uint8Array.prototype.set: overwrite dst[off .. off+src.length)
with src, keeping the length of dst (all uses in the source fit inside the
destination). -/
def listSet (dst : List Nat) (off : Nat) (src : List Nat) : List Nat :=
  dst.mapIdx fun i b => if off ≤ i ∧ i < off + src.length then src.getD (i - off) 0 else b

/-- Stable-sort comparator used by _mergeSegmentsGeneric: ascending address,
ties broken by original index (the JS code annotates each segment with _idx
and compares (address, _idx)). -/
def idxSegLE (a b : Nat × Segment) : Prop :=
  a.2.address < b.2.address ∨ (a.2.address = b.2.address ∧ a.1 ≤ b.1)

instance : DecidableRel idxSegLE := fun a b => by
  unfold idxSegLE; infer_instance

instance : IsTotal (Nat × Segment) idxSegLE :=
  ⟨by intro a b; unfold idxSegLE; omega⟩

instance : IsTrans (Nat × Segment) idxSegLE :=
  ⟨by intro a b c; unfold idxSegLE; omega⟩

/-- Sort segments by ascending address, stable (equal addresses keep their
original relative order), as the indexed sort in _mergeSegmentsGeneric. -/
def sortByAddress (l : List Segment) : List Segment :=
  (List.insertionSort idxSegLE l.enum).map Prod.snd

/-- Merge step of _mergeSegmentsGeneric for one overlapping/touching pair:
allocate max(currentEnd, nextEnd) - current.address bytes, copy current.data
at offset 0 and next.data at next.address - current.address. -/
def mergeTwo (cur next : Segment) : Segment :=
  let currentEnd := cur.stop
  let mergedEnd := max currentEnd next.stop
  let mergedSize := mergedEnd - cur.address
  let d1 := listSet (List.replicate mergedSize 0) 0 cur.data
  let d2 := listSet d1 (next.address - cur.address) next.data
  { address := cur.address, data := d2 }

/-- Main fold of _mergeSegmentsGeneric over the sorted list: coalesce while
next.address <= currentEnd, otherwise emit current and continue. -/
def mergeLoop (cur : Segment) : List Segment → List Segment
  | [] => [cur]
  | next :: rest =>
    if next.address ≤ cur.stop then mergeLoop (mergeTwo cur next) rest
    else cur :: mergeLoop next rest

/-- SparseImage._mergeSegmentsGeneric: lists of length <= 1 are returned
unchanged, otherwise the list is stably sorted by address and coalesced. -/
def mergeSegmentsGeneric (l : List Segment) : List Segment :=
  if l.length ≤ 1 then l
  else
    match sortByAddress l with
    | [] => []
    | s :: t => mergeLoop s t

/-- SparseImage._addSegment: push { address, data } and re-merge. -/
def addSegment (list : List Segment) (address : Nat) (data : List Nat) :
    List Segment :=
  mergeSegmentsGeneric (list ++ [⟨address, data⟩])

/-- Overlay of one segment onto a materialization buffer for [start, endA),
the clipped Uint8Array.set inside _materializeRange. -/
def overlaySeg (start endA : Nat) (out : List Nat) (seg : Segment) : List Nat :=
  let o0 := max start seg.address
  let o1 := min endA seg.stop
  if o0 < o1 then
    listSet out (o0 - start) ((seg.data.drop (o0 - seg.address)).take (o1 - o0))
  else out

/-- SparseImage._materializeRange: 0xFF-filled buffer overlaid with the read
segments and then the write segments. -/
def materializeRange (rb wb : List Segment) (start endA : Nat) : List Nat :=
  wb.foldl (overlaySeg start endA)
    (rb.foldl (overlaySeg start endA) (List.replicate (endA - start) 0xFF))

/-- SparseImage._materializeReadRange: 0xFF-filled buffer overlaid with the
read segments only. -/
def materializeReadRange (rb : List Segment) (start endA : Nat) : List Nat :=
  rb.foldl (overlaySeg start endA) (List.replicate (endA - start) 0xFF)

/-- State of a SparseImage relevant to the segment sets: total size, the
configured granularity (sectorSize) and the two segment buffers.  The read
and write callbacks are modelled as parameters of the operations that invoke
them. -/
structure SparseImage where
  size : Nat
  sectorSize : Nat
  readBuffer : List Segment
  writeBuffer : List Segment
deriving Repr, DecidableEq

/-- SparseImage._effectiveByte: byte of a covering write segment (masked),
else of a covering read segment, else the erased-flash sentinel 0xFF. -/
def effectiveByte (img : SparseImage) (pos : Nat) : Nat :=
  match findSegment pos img.writeBuffer with
  | some w => w.val pos % 256
  | none =>
    match findSegment pos img.readBuffer with
    | some r => r.val pos % 256
    | none => 0xFF

/-- SparseImage._get: undefined (none) outside [0, size); a covering write
segment wins over a covering read segment; uncovered in-bounds addresses
yield 0 (the JS comment: Return 0 for unread data). -/
def get (img : SparseImage) (index : Nat) : Option Nat :=
  if index < img.size then
    some (match findSegment index img.writeBuffer with
      | some w => w.val index
      | none =>
        match findSegment index img.readBuffer with
        | some r => r.val index
        | none => 0)
  else none

/-- Byte as it lands in the Uint8Array built by subarray: _get, with the
out-of-range undefined coerced to 0 by the typed-array store. -/
def getByte (img : SparseImage) (index : Nat) : Nat := (get img index).getD 0

/-- Specification-level accessor (not part of the source): the byte stored
for an address by a pair of segment lists with write-over-read priority,
none when neither list covers the address.  _get equals this with default 0,
_effectiveByte with default 0xFF. -/
def effVal (wb rb : List Segment) (p : Nat) : Option Nat :=
  match findSegment p wb with
  | some w => some (w.val p)
  | none =>
    match findSegment p rb with
    | some r => some (r.val p)
    | none => none

/-- Effective sector size used inside write: this.sectorSize || 0x1000
(so a zero stored sector size falls back to 4096 and the effective value is
always positive). -/
def effSectorSize (img : SparseImage) : Nat :=
  if img.sectorSize = 0 then 0x1000 else img.sectorSize

/-- Sector start addresses hit by [rangeStart, rangeEnd): the JS loop
for (s = floor(rangeStart / sectorSize) * sectorSize; s < rangeEnd; s += sectorSize). -/
def sectorList (ss rangeStart rangeEnd : Nat) : List Nat :=
  let s0 := rangeStart / ss * ss
  (List.range ((rangeEnd - s0 + ss - 1) / ss)).map (fun i => s0 + i * ss)

/-- markSectors: add each hit sector start to the touched set; a JS Set
iterates in insertion order, modelled as an ordered list without
duplicates. -/
def markSectors (ss : Nat) (ts : List Nat) (rangeStart rangeEnd : Nat) : List Nat :=
  (sectorList ss rangeStart rangeEnd).foldl
    (fun acc s => if acc.contains s then acc else acc ++ [s]) ts

/-- nextBoundary helper of SparseImage.write: the closest coverage-change
boundary after pos, capped at limit, also at the end of the current sector. -/
def nextBoundary (rb wb : List Segment) (ss pos limit : Nat) : Nat :=
  let nb := (rb ++ wb).foldl
    (fun nb s =>
      let nb := if s.address > pos && s.address < nb then s.address else nb
      if s.stop > pos && s.stop < nb then s.stop else nb)
    limit
  let sectorEnd := min limit ((pos / ss + 1) * ss)
  if sectorEnd > pos && sectorEnd < nb then sectorEnd else nb

/-- Matching-prefix length computed by the inner while-loop of case 2 of
SparseImage.write: number of leading positions where the cached byte equals
the desired byte (normalized[...] & 0xFF). -/
def countMatch (cdata norm : List Nat) (offset noff : Nat) : Nat → Nat
  | 0 => 0
  | span + 1 =>
    if cdata.getD offset 0 = norm.getD noff 0 % 256 then
      countMatch cdata norm (offset + 1) (noff + 1) span + 1
    else 0

/-- Replace the first segment of the list covering p (the object that JS
mutates in place in case 1 of write). -/
def updateFirstCovering (p : Nat) (f : Segment → Segment) :
    List Segment → List Segment
  | [] => []
  | s :: t => if s.covers p then f s :: t else s :: updateFirstCovering p f t

/-- One-pass state of the staging loop of SparseImage.write: the write
buffer, the touched-sector list and the current position. -/
structure WriteLoopState where
  wb : List Segment
  ts : List Nat
  pos : Nat

/-- Staging loop of SparseImage.write (the while (remaining > 0) loop).
Parameters: rb = this.readBuffer (never mutated by write), ss = sectorSize,
size = this.size, start/endA = the clamped write range, norm = the
normalized data bytes.  Fuel: every iteration advances pos by at least one
(case 1 because the covering segment extends past pos, case 2 because
matchLen > 0 or writeEnd > pos, case 3 because nextBoundary > pos), so
endA - start iterations always complete the JS loop; write below passes
exactly that fuel. -/
def writeLoop (rb : List Segment) (ss size start endA : Nat) (norm : List Nat) :
    Nat → WriteLoopState → List Segment × List Nat
  | 0, st => (st.wb, st.ts)
  | fuel + 1, st =>
    if st.pos < endA then
      match findSegment st.pos st.wb with
      | some wseg =>
        /- Case 1: existing write buffer covers the position; overwrite in
        place. -/
        let offset := st.pos - wseg.address
        let span := min (endA - st.pos) (wseg.data.length - offset)
        let newData := listSet wseg.data offset
          ((norm.drop (st.pos - start)).take span)
        let wb := updateFirstCovering st.pos
          (fun s => { address := s.address, data := newData }) st.wb
        writeLoop rb ss size start endA norm fuel
          ⟨wb, markSectors ss st.ts st.pos (st.pos + span), st.pos + span⟩
      | none =>
        match findSegment st.pos rb with
        | some cseg =>
          /- Case 2: cached read data covers the position. -/
          let offset := st.pos - cseg.address
          let span := min (endA - st.pos) (cseg.data.length - offset)
          let matchLen := countMatch cseg.data norm offset (st.pos - start) span
          if 0 < matchLen then
            writeLoop rb ss size start endA norm fuel
              ⟨st.wb, st.ts, st.pos + matchLen⟩
          else
            let sectorStart := st.pos / ss * ss
            let sectorEnd := min (sectorStart + ss) size
            if coveredFrom rb sectorStart sectorEnd then
              /- Mismatch with the full sector read-cached: materialize the
              sector, apply the new bytes, stage the whole sector. -/
              let sectorBuf := materializeRange rb st.wb sectorStart sectorEnd
              let writeEnd := min endA sectorEnd
              let sectorBuf := listSet sectorBuf (st.pos - sectorStart)
                ((norm.drop (st.pos - start)).take (writeEnd - st.pos))
              writeLoop rb ss size start endA norm fuel
                ⟨addSegment st.wb sectorStart sectorBuf,
                 markSectors ss st.ts sectorStart sectorEnd, writeEnd⟩
            else
              /- Mismatch, sector not fully cached: stage up to the next
              boundary. -/
              let writeEnd := min (nextBoundary rb st.wb ss st.pos endA) endA
              let slice := (norm.drop (st.pos - start)).take (writeEnd - st.pos)
              writeLoop rb ss size start endA norm fuel
                ⟨mergeSegmentsGeneric (addSegment st.wb st.pos slice),
                 markSectors ss st.ts st.pos writeEnd, writeEnd⟩
        | none =>
          /- Case 3: no cache coverage; stage up to the next boundary. -/
          let writeEnd := min (nextBoundary rb st.wb ss st.pos endA) endA
          let slice := (norm.drop (st.pos - start)).take (writeEnd - st.pos)
          writeLoop rb ss size start endA norm fuel
            ⟨mergeSegmentsGeneric (addSegment st.wb st.pos slice),
             markSectors ss st.ts st.pos writeEnd, writeEnd⟩
    else (st.wb, st.ts)

/-- Splitting step of the cleanup phase of SparseImage.write: keep segments
outside the sector, keep the left/right remainders of segments crossing the
sector boundary, drop the parts inside the sector. -/
def pruneSegs (sectorStart sectorEnd : Nat) : List Segment → List Segment
  | [] => []
  | seg :: t =>
    let rest := pruneSegs sectorStart sectorEnd t
    if seg.stop ≤ sectorStart || seg.address ≥ sectorEnd then seg :: rest
    else
      (if seg.address < sectorStart then
        let left := seg.data.take (sectorStart - seg.address)
        if 0 < left.length then [⟨seg.address, left⟩] else []
      else []) ++
      (if seg.stop > sectorEnd then
        let right := seg.data.drop (sectorEnd - seg.address)
        if 0 < right.length then [⟨sectorEnd, right⟩] else []
      else []) ++ rest

/-- Cleanup of one touched sector in SparseImage.write: when the sector is
fully backed by the read cache and the combined (write-over-read) bytes are
identical to the read-only bytes, drop the write coverage of the sector. -/
def pruneSector (rb : List Segment) (size ss : Nat) (wb : List Segment)
    (sectorStart : Nat) : List Segment :=
  let sectorEnd := min (sectorStart + ss) size
  if coveredFrom rb sectorStart sectorEnd then
    let baseline := materializeReadRange rb sectorStart sectorEnd
    let combined := materializeRange rb wb sectorStart sectorEnd
    if baseline.length = combined.length ∧ combined = baseline then
      mergeSegmentsGeneric (pruneSegs sectorStart sectorEnd wb)
    else wb
  else wb

/-- SparseImage.write: stage data into the write buffer.  An address outside
[0, size) makes the JS method throw a RangeError before touching any state;
the model returns the unchanged state in that case.  The conversion
new Uint8Array(data) is the byte mask on every entry. -/
def write (img : SparseImage) (address : Nat) (data : List Nat) : SparseImage :=
  if address < img.size then
    let norm := data.map (· % 256)
    let start := address
    let endA := min (address + norm.length) img.size
    if endA ≤ start then img
    else
      let ss := effSectorSize img
      let r := writeLoop img.readBuffer ss img.size start endA norm
        (endA - start) ⟨img.writeBuffer, [], start⟩
      let wb := r.2.foldl (pruneSector img.readBuffer img.size ss) r.1
      { img with writeBuffer := mergeSegmentsGeneric wb }
  else img

/-- Annotated segment used by _mergeReadAndWriteWithPriority: src records
whether the segment came from the write list (true) or the read list. -/
structure ASeg where
  address : Nat
  data : List Nat
  src : Bool
deriving Repr, DecidableEq

def ASeg.stop (s : ASeg) : Nat := s.address + s.data.length

/-- Stable comparator on annotated segments (the JS sort by address is
stable per the ECMAScript spec; ties keep reads, pushed first, before
writes). -/
def idxASegLE (a b : Nat × ASeg) : Prop :=
  a.2.address < b.2.address ∨ (a.2.address = b.2.address ∧ a.1 ≤ b.1)

instance : DecidableRel idxASegLE := fun a b => by
  unfold idxASegLE; infer_instance

instance : IsTotal (Nat × ASeg) idxASegLE :=
  ⟨by intro a b; unfold idxASegLE; omega⟩

instance : IsTrans (Nat × ASeg) idxASegLE :=
  ⟨by intro a b c; unfold idxASegLE; omega⟩

def sortASegs (l : List ASeg) : List ASeg :=
  (List.insertionSort idxASegLE l.enum).map Prod.snd

/-- flushGroup inside _mergeReadAndWriteWithPriority: allocate the group
extent, overlay the read members in push order, then the write members. -/
def flushGroup (groupStart groupEnd : Nat) (group : List ASeg) : Segment :=
  let base := List.replicate (groupEnd - groupStart) 0
  let d1 := group.foldl
    (fun d s => if s.src then d else listSet d (s.address - groupStart) s.data) base
  let d2 := group.foldl
    (fun d s => if s.src then listSet d (s.address - groupStart) s.data else d) d1
  ⟨groupStart, d2⟩

/-- Grouping walk of _mergeReadAndWriteWithPriority over the sorted
annotated segments: extend the current group while the next segment starts
at or before the group end, else emit the group. -/
def groupLoop (group : List ASeg) (groupStart groupEnd : Nat) :
    List ASeg → List Segment
  | [] => [flushGroup groupStart groupEnd group]
  | seg :: rest =>
    if seg.address ≤ groupEnd then
      groupLoop (group ++ [seg]) groupStart (max groupEnd seg.stop) rest
    else
      flushGroup groupStart groupEnd group ::
        groupLoop [seg] seg.address seg.stop rest

/-- SparseImage._mergeReadAndWriteWithPriority. -/
def mergeReadAndWriteWithPriority (readList writeList : List Segment) :
    List Segment :=
  if readList.length = 0 ∧ writeList.length = 0 then []
  else
    let annotated := readList.map (fun s => ASeg.mk s.address s.data false) ++
      writeList.map (fun s => ASeg.mk s.address s.data true)
    match sortASegs annotated with
    | [] => []
    | s :: t => groupLoop [s] s.address s.stop t

/-- SparseImage.flush, with no flushPrepareCallback configured (the
constructor default); the write callback only exports segment contents and
does not touch the image state.  Consolidate the write buffer, merge it into
the read buffer with write-over-read priority, clear the write buffer. -/
def flush (img : SparseImage) : SparseImage :=
  if img.writeBuffer.length = 0 then img
  else
    let wb := mergeSegmentsGeneric img.writeBuffer
    { img with
      readBuffer := mergeReadAndWriteWithPriority img.readBuffer wb,
      writeBuffer := [] }

/-- Pure model of the asynchronous read-data callback: given the gap start
and size it either produces a record (address, bytes) — covering the shapes
the JS accepts: a plain Uint8Array means address = gap start — or nothing
usable (none / empty bytes both end the fill loop). -/
def ReadCb := Nat → Nat → Option (Nat × List Nat)

/-- Fill loop of SparseImage._ensureDataUnlocked: while the range is not
covered and the safety counter is positive, find the first gap and fill it,
either with a zero-filled segment (no callback) or with the callback result;
a callback result with no bytes ends the loop (the JS break avoiding an
infinite loop). -/
def ensureLoop (cb : Option ReadCb) (address size : Nat) :
    Nat → SparseImage → SparseImage
  | 0, img => img
  | safety + 1, img =>
    if coveredAnyFrom img.writeBuffer img.readBuffer address (address + size) then img
    else
      match findFirstGapRange img.writeBuffer img.readBuffer address (address + size) with
      | none => img
      | some (gapStart, gapSize) =>
        if gapSize = 0 then img
        else
          match cb with
          | none =>
            ensureLoop cb address size safety
              { img with readBuffer :=
                  addSegment img.readBuffer gapStart (List.replicate gapSize 0) }
          | some f =>
            match f gapStart gapSize with
            | some (a, d) =>
              if 0 < d.length then
                ensureLoop cb address size safety
                  { img with readBuffer := addSegment img.readBuffer a d }
              else img
            | none => img

/-- SparseImage._ensureDataUnlocked: bounds check, clamp the size to the
image end, then run the fill loop with the safety counter 64. -/
def ensureDataUnlocked (cb : Option ReadCb) (img : SparseImage)
    (address size : Nat) : Except String SparseImage :=
  if address < img.size then
    Except.ok (ensureLoop cb address (min size (img.size - address)) 64 img)
  else
    Except.error "Address out of bounds"

/-- SparseImage.subarray_async: ensure the range is loaded, then copy it
byte by byte through _get. -/
def subarrayAsync (cb : Option ReadCb) (img : SparseImage) (start endA : Nat) :
    Except String (SparseImage × List Nat) :=
  match ensureDataUnlocked cb img start (endA - start) with
  | Except.error e => Except.error e
  | Except.ok img2 =>
    Except.ok (img2, (List.range (endA - start)).map (fun i => getByte img2 (start + i)))

/-- Operations quantified over by the segment invariant: SparseImage.write
and SparseImage.flush. -/
inductive Op where
  | opWrite (address : Nat) (data : List Nat)
  | opFlush
deriving Repr, DecidableEq

def applyOp (img : SparseImage) : Op → SparseImage
  | Op.opWrite a d => write img a d
  | Op.opFlush => flush img

def runOps (img : SparseImage) (ops : List Op) : SparseImage :=
  ops.foldl applyOp img

/-- Segment-set invariant of the specification: segments sorted by ascending
address, and each segment ends strictly before the next one begins (no
overlapping, no touching). -/
def Separated (l : List Segment) : Prop :=
  List.Pairwise (fun a b => a.stop < b.address) l

instance : DecidablePred Separated := fun l => by
  unfold Separated; infer_instance

/-! FATParser wear-leveling translation. -/

/-- FATParser.wlTranslateSector: translated = (sector + moveCount) mod
fatSectors, then translated += 1 when translated >= totalRecords. -/
def wlTranslateSector (moveCount fatSectors totalRecords sector : Nat) : Nat :=
  let translated := (sector + moveCount) % fatSectors
  if translated ≥ totalRecords then translated + 1 else translated

/-! OTADataParser. -/

/-- CRC32 lookup table of OTADataParser (esp_rom_crc32_le), copied from the
source verbatim. -/
def crc32leTable : List Nat := [
  0x00000000, 0x77073096, 0xee0e612c, 0x990951ba, 0x076dc419, 0x706af48f, 0xe963a535, 0x9e6495a3,
  0x0edb8832, 0x79dcb8a4, 0xe0d5e91e, 0x97d2d988, 0x09b64c2b, 0x7eb17cbd, 0xe7b82d07, 0x90bf1d91,
  0x1db71064, 0x6ab020f2, 0xf3b97148, 0x84be41de, 0x1adad47d, 0x6ddde4eb, 0xf4d4b551, 0x83d385c7,
  0x136c9856, 0x646ba8c0, 0xfd62f97a, 0x8a65c9ec, 0x14015c4f, 0x63066cd9, 0xfa0f3d63, 0x8d080df5,
  0x3b6e20c8, 0x4c69105e, 0xd56041e4, 0xa2677172, 0x3c03e4d1, 0x4b04d447, 0xd20d85fd, 0xa50ab56b,
  0x35b5a8fa, 0x42b2986c, 0xdbbbc9d6, 0xacbcf940, 0x32d86ce3, 0x45df5c75, 0xdcd60dcf, 0xabd13d59,
  0x26d930ac, 0x51de003a, 0xc8d75180, 0xbfd06116, 0x21b4f4b5, 0x56b3c423, 0xcfba9599, 0xb8bda50f,
  0x2802b89e, 0x5f058808, 0xc60cd9b2, 0xb10be924, 0x2f6f7c87, 0x58684c11, 0xc1611dab, 0xb6662d3d,
  0x76dc4190, 0x01db7106, 0x98d220bc, 0xefd5102a, 0x71b18589, 0x06b6b51f, 0x9fbfe4a5, 0xe8b8d433,
  0x7807c9a2, 0x0f00f934, 0x9609a88e, 0xe10e9818, 0x7f6a0dbb, 0x086d3d2d, 0x91646c97, 0xe6635c01,
  0x6b6b51f4, 0x1c6c6162, 0x856530d8, 0xf262004e, 0x6c0695ed, 0x1b01a57b, 0x8208f4c1, 0xf50fc457,
  0x65b0d9c6, 0x12b7e950, 0x8bbeb8ea, 0xfcb9887c, 0x62dd1ddf, 0x15da2d49, 0x8cd37cf3, 0xfbd44c65,
  0x4db26158, 0x3ab551ce, 0xa3bc0074, 0xd4bb30e2, 0x4adfa541, 0x3dd895d7, 0xa4d1c46d, 0xd3d6f4fb,
  0x4369e96a, 0x346ed9fc, 0xad678846, 0xda60b8d0, 0x44042d73, 0x33031de5, 0xaa0a4c5f, 0xdd0d7cc9,
  0x5005713c, 0x270241aa, 0xbe0b1010, 0xc90c2086, 0x5768b525, 0x206f85b3, 0xb966d409, 0xce61e49f,
  0x5edef90e, 0x29d9c998, 0xb0d09822, 0xc7d7a8b4, 0x59b33d17, 0x2eb40d81, 0xb7bd5c3b, 0xc0ba6cad,
  0xedb88320, 0x9abfb3b6, 0x03b6e20c, 0x74b1d29a, 0xead54739, 0x9dd277af, 0x04db2615, 0x73dc1683,
  0xe3630b12, 0x94643b84, 0x0d6d6a3e, 0x7a6a5aa8, 0xe40ecf0b, 0x9309ff9d, 0x0a00ae27, 0x7d079eb1,
  0xf00f9344, 0x8708a3d2, 0x1e01f268, 0x6906c2fe, 0xf762575d, 0x806567cb, 0x196c3671, 0x6e6b06e7,
  0xfed41b76, 0x89d32be0, 0x10da7a5a, 0x67dd4acc, 0xf9b9df6f, 0x8ebeeff9, 0x17b7be43, 0x60b08ed5,
  0xd6d6a3e8, 0xa1d1937e, 0x38d8c2c4, 0x4fdff252, 0xd1bb67f1, 0xa6bc5767, 0x3fb506dd, 0x48b2364b,
  0xd80d2bda, 0xaf0a1b4c, 0x36034af6, 0x41047a60, 0xdf60efc3, 0xa867df55, 0x316e8eef, 0x4669be79,
  0xcb61b38c, 0xbc66831a, 0x256fd2a0, 0x5268e236, 0xcc0c7795, 0xbb0b4703, 0x220216b9, 0x5505262f,
  0xc5ba3bbe, 0xb2bd0b28, 0x2bb45a92, 0x5cb36a04, 0xc2d7ffa7, 0xb5d0cf31, 0x2cd99e8b, 0x5bdeae1d,
  0x9b64c2b0, 0xec63f226, 0x756aa39c, 0x026d930a, 0x9c0906a9, 0xeb0e363f, 0x72076785, 0x05005713,
  0x95bf4a82, 0xe2b87a14, 0x7bb12bae, 0x0cb61b38, 0x92d28e9b, 0xe5d5be0d, 0x7cdcefb7, 0x0bdbdf21,
  0x86d3d2d4, 0xf1d4e242, 0x68ddb3f8, 0x1fda836e, 0x81be16cd, 0xf6b9265b, 0x6fb077e1, 0x18b74777,
  0x88085ae6, 0xff0f6a70, 0x66063bca, 0x11010b5c, 0x8f659eff, 0xf862ae69, 0x616bffd3, 0x166ccf45,
  0xa00ae278, 0xd70dd2ee, 0x4e048354, 0x3903b3c2, 0xa7672661, 0xd06016f7, 0x4969474d, 0x3e6e77db,
  0xaed16a4a, 0xd9d65adc, 0x40df0b66, 0x37d83bf0, 0xa9bcae53, 0xdebb9ec5, 0x47b2cf7f, 0x30b5ffe9,
  0xbdbdf21c, 0xcabac28a, 0x53b39330, 0x24b4a3a6, 0xbad03605, 0xcdd70693, 0x54de5729, 0x23d967bf,
  0xb3667a2e, 0xc4614ab8, 0x5d681b02, 0x2a6f2b94, 0xb40bbe37, 0xc30c8ea1, 0x5a05df1b, 0x2d02ef8d]

/-- OTADataParser.calculateCRC32: table-driven CRC starting from crc = 0
(the all-ones seed of esp_rom_crc32_le already inverted) and inverted at the
end; JS bitwise operators are value-preserving modulo 2^32, so
(crc ^ b) & 0xff is (crc xor b) % 256, crc >>> 8 is crc / 256, and
(~crc) >>> 0 is crc xor 0xFFFFFFFF for crc < 2^32. -/
def calculateCRC32 (data : List Nat) : Nat :=
  let crc := data.foldl
    (fun crc b => Nat.xor (crc32leTable.getD (Nat.xor crc b % 256) 0) (crc / 256)) 0
  Nat.xor crc 0xFFFFFFFF

/-- Little-endian 32-bit read out of a byte list (DataView.getUint32 with
littleEndian = true over a fully materialized buffer). -/
def getU8 (img : List Nat) (off : Nat) : Nat := img.getD off 0

def getU32le (img : List Nat) (off : Nat) : Nat :=
  getU8 img off + 256 * getU8 img (off + 1) + 65536 * getU8 img (off + 2) +
    16777216 * getU8 img (off + 3)

/-- Little-endian byte serialization of a 32-bit value. -/
def u32leBytes (n : Nat) : List Nat :=
  [n % 256, n / 256 % 256, n / 65536 % 256, n / 16777216 % 256]

/-- One decoded otadata entry (esp_ota_select_entry_t) as built by
OTADataParser.initialize: sequence at offset 0, state at offset 24, CRC at
offset 28 of the 4096-byte slot, CRC computed over the 4 sequence bytes. -/
structure OTAEntry where
  index : Nat
  sequence : Nat
  otaState : Nat
  crc : Nat
  calculatedCRC : Nat
  crcValid : Bool
  isValid : Bool
  isEmpty : Bool
deriving Repr, DecidableEq

def otaEntryAt (data : List Nat) (i : Nat) : OTAEntry :=
  let off := i * 0x1000
  let seq := getU32le data off
  let otaState := getU32le data (off + 24)
  let crc := getU32le data (off + 28)
  let calculatedCRC := calculateCRC32 ((List.range 4).map (fun j => getU8 data (off + j)))
  let crcValid := crc = calculatedCRC
  let isInvalid := seq = 0xFFFFFFFF ∨ otaState = 0x3 ∨ otaState = 0x4
  { index := i
    sequence := seq
    otaState := otaState
    crc := crc
    calculatedCRC := calculatedCRC
    crcValid := crcValid
    isValid := ¬isInvalid ∧ crcValid
    isEmpty := seq = 0xFFFFFFFF }

/-- OTADataParser.initialize over the 2 * 4096 bytes of the otadata
partition: decode both entries and pick the active one
(bootloader_common_get_active_otadata logic). -/
def otaInitialize (data : List Nat) : List OTAEntry × Option Nat :=
  let e0 := otaEntryAt data 0
  let e1 := otaEntryAt data 1
  let activeEntry : Option Nat :=
    if e0.isValid ∧ e1.isValid then
      some (if e0.sequence > e1.sequence then 0 else 1)
    else if e0.isValid then some 0
    else if e1.isValid then some 1
    else none
  ([e0, e1], activeEntry)

/-- Raw bytes of one 4096-byte otadata slot holding the given sequence,
state and CRC fields at their on-flash offsets (0, 24, 28), everything else
zero; used to state the OTA selection scenario. -/
def mkOtaPage (seq state crc : Nat) : List Nat :=
  u32leBytes seq ++ List.replicate 20 0 ++ u32leBytes state ++ u32leBytes crc ++
    List.replicate (0x1000 - 32) 0

/-! ESP32Parser.calculateImageChecksum.  The parser is modelled over the
fully materialized byte list of the image (a SparseImage wrapping a complete
buffer, where every view read returns the underlying byte); the JS 1 MiB
chunking of slice_async XORs exactly the same payload bytes in the same
order and is folded into one pass per segment. -/

/-- Per-segment loop of calculateImageChecksum: read the 8-byte segment
header (load address is read but unused), validate the length, XOR the
payload bytes into the running checksum. -/
def checksumSegLoop (img : List Nat) (maxOffset : Nat) :
    Nat → Nat → Nat → Except String (Nat × Nat)
  | 0, currentOffset, checksum => Except.ok (currentOffset, checksum)
  | i + 1, currentOffset, checksum =>
    let segLength := getU32le img (currentOffset + 4)
    if segLength = 0xFFFFFFFF ∨ segLength > 0x1000000 then
      Except.error "Segment has invalid length - image may be corrupted or truncated"
    else
      let co := currentOffset + 8
      if co + segLength > maxOffset then
        Except.error "Segment extends beyond image bounds"
      else
        let payload := (List.range segLength).map (fun j => getU8 img (co + j))
        checksumSegLoop img maxOffset i (co + segLength)
          (payload.foldl Nat.xor checksum)

/-- Padding walk at the end of calculateImageChecksum:
while (currentOffset % 16 !== 15) currentOffset++.  At most 15 increments
are ever needed; fuel 16 makes that explicit. -/
def padTo15 : Nat → Nat → Nat
  | 0, off => off
  | fuel + 1, off => if off % 16 = 15 then off else padTo15 fuel (off + 1)

/-- ESP32Parser.calculateImageChecksum: magic check, then XOR of all segment
payload bytes seeded with 0xEF, masked to one byte, together with the
checksum offset (first offset >= end of segments with offset % 16 == 15). -/
def calculateImageChecksum (img : List Nat) (imageOffset : Nat)
    (imageLength : Option Nat) : Except String (Nat × Nat) :=
  if getU8 img imageOffset ≠ 0xE9 then Except.error "Invalid image magic"
  else
    let segmentCount := getU8 img (imageOffset + 1)
    let maxOffset := match imageLength with
      | some l => imageOffset + l
      | none => img.length
    match checksumSegLoop img maxOffset segmentCount (imageOffset + 24) 0xEF with
    | Except.error e => Except.error e
    | Except.ok (co, cs) => Except.ok (cs % 256, padTo15 16 co)

/-- On-flash bytes of one code segment: the 8-byte header (32-bit load
address and payload length, little endian) followed by the payload. -/
def segBytes (s : Nat × List Nat) : List Nat :=
  u32leBytes s.1 ++ u32leBytes s.2.length ++ s.2

def segsBytes : List (Nat × List Nat) → List Nat
  | [] => []
  | s :: t => segBytes s ++ segsBytes t

/-- Well-formed firmware image built from a list of (load address, payload)
segments: 24-byte header with magic 0xE9 and the segment count at offset 1,
followed by the segments. -/
def imageOfSegments (segs : List (Nat × List Nat)) : List Nat :=
  0xE9 :: segs.length :: (List.replicate 22 0 ++ segsBytes segs)

/-! SlipLayer. -/

/-- SlipLayer.encode: wrap the packet between 0xC0 delimiters, escaping
0xC0 as 0xDB 0xDC and 0xDB as 0xDB 0xDD. -/
def slipEscape : List Nat → List Nat
  | [] => []
  | b :: t =>
    if b = 0xC0 then 0xDB :: 0xDC :: slipEscape t
    else if b = 0xDB then 0xDB :: 0xDD :: slipEscape t
    else b :: slipEscape t

def slipEncode (packet : List Nat) : List Nat :=
  0xC0 :: slipEscape packet ++ [0xC0]

/-- Decoder state of SlipLayer: the pending buffer and the escaping flag,
initialized empty/false by the constructor. -/
structure SlipState where
  buffer : List Nat
  escaping : Bool
deriving Repr, DecidableEq

def slipInit : SlipState := ⟨[], false⟩

/-- SlipLayer.decode: scan the bytes, emitting one packet at each 0xC0 seen
with non-empty accumulated content, resolving 0xDB escapes.  Returns the
decoded packets and the decoder state left for the next chunk. -/
def slipDecode (st : SlipState) : List Nat → List (List Nat) × SlipState
  | [] => ([], st)
  | b :: rest =>
    if b = 0xC0 then
      if 0 < st.buffer.length then
        let (packets, fin) := slipDecode ⟨[], st.escaping⟩ rest
        (st.buffer :: packets, fin)
      else slipDecode st rest
    else if st.escaping then
      if b = 0xDC then slipDecode ⟨st.buffer ++ [0xC0], false⟩ rest
      else if b = 0xDD then slipDecode ⟨st.buffer ++ [0xDB], false⟩ rest
      else slipDecode ⟨st.buffer, false⟩ rest
    else if b = 0xDB then slipDecode ⟨st.buffer, true⟩ rest
    else slipDecode ⟨st.buffer ++ [b], false⟩ rest

/-! ESPFlasher.readFlashPlain raw-data handler.  The handler is the
rawDataCbr closure passed to executeCommand; timing bookkeeping and logging
do not affect the result.  The local digest primitive this.calculateMD5
(the vendored Md5 class, returning a lowercase hex string) is a parameter:
the pipeline behaviour under scrutiny is the comparison and
resolve/reject control flow, which is independent of the digest function
plugged in. -/

/-- Hex rendering of received digest bytes:
b.toString(16).padStart(2, '0') joined (byte values, so two digits each). -/
def hexChar (n : Nat) : Char := "0123456789abcdef".toList.getD n 'x'

def toHexLower (bs : List Nat) : String :=
  String.join (bs.map (fun b => String.mk [hexChar (b / 16 % 16), hexChar (b % 16)]))

/-- Model of String.prototype.toLowerCase: lower-case every character. -/
def toLowerStr (s : String) : String := String.mk (s.data.map Char.toLower)

/-- Accumulator state of the readFlashPlain pipeline. -/
structure ReadFlashState where
  data : List Nat
  lastAckedLength : Nat
deriving Repr, DecidableEq

/-- Settlement action of one handler invocation: keep accumulating, resolve
with the payload, or reject with an error message. -/
inductive FlashAction where
  | proceed
  | resolved (value : List Nat)
  | rejected (msg : String)
deriving Repr, DecidableEq

/-- One invocation of the raw-data handler of ESPFlasher.readFlashPlain:
while accumulated data is shorter than totalLength, append the frame and
emit a flow-control acknowledgement when the in-flight window fills; once
exactly totalLength bytes are accumulated the next frame must be the
16-byte digest, compared (as lowercase hex) against the locally computed
digest of the accumulated payload.  Returns the new state, the settlement
action, and the acknowledgement frame written, if any. -/
def readFlashRawHandler (md5hex : List Nat → String)
    (totalLength maxInFlight : Nat) (st : ReadFlashState) (rawData : List Nat) :
    ReadFlashState × FlashAction × Option (List Nat) :=
  if st.data.length = totalLength then
    if rawData.length = 16 then
      let calculatedMD5 := md5hex st.data
      let receivedMD5 := toHexLower rawData
      if toLowerStr calculatedMD5 = toLowerStr receivedMD5 then
        (st, FlashAction.resolved st.data, none)
      else
        (st, FlashAction.rejected
          ("MD5 mismatch! Expected: " ++ receivedMD5 ++ ", Got: " ++ calculatedMD5),
         none)
    else
      (st, FlashAction.rejected
        ("Unknown response length for MD5! Expected: 16, Got: " ++
          toString rawData.length), none)
  else
    let newData := st.data ++ rawData
    if newData.length ≥ st.lastAckedLength + maxInFlight ∨ newData.length ≥ totalLength then
      (⟨newData, min (st.lastAckedLength + maxInFlight) totalLength⟩,
       FlashAction.proceed, some (u32leBytes newData.length))
    else
      (⟨newData, st.lastAckedLength⟩, FlashAction.proceed, none)

/-- Run of the pipeline over a sequence of incoming raw-data frames: the
promise of executeCommand settles at the first resolve or reject; none
means it is still pending after the frames. -/
def readFlashRun (md5hex : List Nat → String) (totalLength maxInFlight : Nat)
    (st : ReadFlashState) : List (List Nat) → Option (Except String (List Nat))
  | [] => none
  | f :: rest =>
    match readFlashRawHandler md5hex totalLength maxInFlight st f with
    | (st2, FlashAction.proceed, _) =>
      readFlashRun md5hex totalLength maxInFlight st2 rest
    | (_, FlashAction.resolved v, _) => some (Except.ok v)
    | (_, FlashAction.rejected m, _) => some (Except.error m)

/-! Basic lemmas about the embedded helpers. -/

theorem findSegment_some {p : Nat} {l : List Segment} {s : Segment}
    (h : findSegment p l = some s) : s ∈ l ∧ s.covers p = true := by
  induction l with
  | nil => simp [findSegment] at h
  | cons a t ih =>
    by_cases hc : a.covers p = true
    · simp [findSegment, hc] at h; subst h; exact ⟨List.mem_cons_self _ _, hc⟩
    · simp [findSegment, hc] at h
      rcases ih h with ⟨hm, hcov⟩
      exact ⟨List.mem_cons_of_mem _ hm, hcov⟩

theorem findSegment_none {p : Nat} {l : List Segment}
    (h : findSegment p l = none) : ∀ s ∈ l, s.covers p = false := by
  induction l with
  | nil => intro s hs; simp at hs
  | cons a t ih =>
    by_cases hc : a.covers p = true
    · simp [findSegment, hc] at h
    · simp [findSegment, hc] at h
      intro s hs
      rcases List.mem_cons.mp hs with rfl | hmem
      · simpa using hc
      · exact ih h s hmem

theorem findSegment_isSome_of_mem {p : Nat} {l : List Segment} {s : Segment}
    (hm : s ∈ l) (hc : s.covers p = true) : (findSegment p l).isSome := by
  induction l with
  | nil => simp at hm
  | cons a t ih =>
    rcases List.mem_cons.mp hm with rfl | hmem
    · simp [findSegment, hc]
    · by_cases ha : a.covers p = true
      · simp [findSegment, ha]
      · simpa [findSegment, ha] using ih hmem

theorem listSet_length (dst : List Nat) (off : Nat) (src : List Nat) :
    (listSet dst off src).length = dst.length := by
  simp [listSet]

theorem listSet_getD (dst : List Nat) (off : Nat) (src : List Nat) (i : Nat)
    (hi : i < dst.length) :
    (listSet dst off src).getD i 0 =
      if off ≤ i ∧ i < off + src.length then src.getD (i - off) 0 else dst.getD i 0 := by
  simp only [listSet]
  rw [List.getD_eq_getElem?_getD, List.getElem?_eq_getElem (by simpa using hi)]
  rw [List.getElem_mapIdx]
  rw [show dst.getD i 0 = dst[i] from by
    rw [List.getD_eq_getElem?_getD, List.getElem?_eq_getElem hi]; rfl]
  simp

theorem effSectorSize_pos (img : SparseImage) : 0 < effSectorSize img := by
  unfold effSectorSize
  split <;> omega

theorem getD_drop (l : List Nat) (m j : Nat) :
    (l.drop m).getD j 0 = l.getD (m + j) 0 := by
  rw [List.getD_eq_getElem?_getD, List.getD_eq_getElem?_getD, List.getElem?_drop]

theorem getD_take (l : List Nat) (n j : Nat) (hj : j < n) :
    (l.take n).getD j 0 = l.getD j 0 := by
  rw [List.getD_eq_getElem?_getD, List.getD_eq_getElem?_getD, List.getElem?_take]
  rw [if_pos hj]

theorem takeDrop_getD (l : List Nat) (m k j : Nat) (hj : j < k) :
    ((l.drop m).take k).getD j 0 = l.getD (m + j) 0 := by
  rw [getD_take _ _ _ hj, getD_drop]

theorem getD_replicate_zero (n j : Nat) :
    (List.replicate n (0 : Nat)).getD j 0 = 0 := by
  rw [List.getD_eq_getElem?_getD]
  rcases Nat.lt_or_ge j n with h | h
  · rw [List.getElem?_eq_getElem (by simpa using h)]
    simp [List.getElem_replicate]
  · rw [List.getElem?_eq_none (by simpa using h)]
    rfl

theorem map_mod_eq_self (l : List Nat) (h : ∀ b ∈ l, b < 256) :
    l.map (· % 256) = l := by
  induction l with
  | nil => rfl
  | cons a t ih =>
    rw [List.map_cons, Nat.mod_eq_of_lt (h a (List.mem_cons_self _ _)),
      ih (fun b hb => h b (List.mem_cons_of_mem _ hb))]

/-! Lemmas about _mergeSegmentsGeneric.  The three facts every caller
relies on: the merged list is separated (sorted, no overlap, no touching),
it covers exactly the addresses the input covered, and wherever all input
segments covering an address agree on its byte, the merged list stores that
byte. -/

theorem covers_iff (s : Segment) (p : Nat) :
    s.covers p = true ↔ s.address ≤ p ∧ p < s.stop := by
  simp [Segment.covers]

theorem sortByAddress_perm (l : List Segment) : (sortByAddress l).Perm l := by
  unfold sortByAddress
  have h1 := List.perm_insertionSort idxSegLE l.enum
  have h2 := h1.map Prod.snd
  rwa [List.enum_map_snd] at h2

theorem sortByAddress_sorted (l : List Segment) :
    List.Pairwise (fun a b : Segment => a.address ≤ b.address) (sortByAddress l) := by
  unfold sortByAddress
  have hs := List.sorted_insertionSort idxSegLE l.enum
  exact List.Pairwise.map Prod.snd (fun a b h => by
    rcases h with h | ⟨h, _⟩
    · exact Nat.le_of_lt h
    · exact Nat.le_of_eq h) hs

theorem mergeTwo_address (cur next : Segment) :
    (mergeTwo cur next).address = cur.address := rfl

theorem mergeTwo_data_length (cur next : Segment) :
    (mergeTwo cur next).data.length = max cur.stop next.stop - cur.address := by
  simp [mergeTwo, listSet_length]

theorem mergeTwo_stop (cur next : Segment) :
    (mergeTwo cur next).stop = max cur.stop next.stop := by
  have h := mergeTwo_data_length cur next
  have ha : (mergeTwo cur next).address = cur.address := rfl
  have hle : cur.address ≤ cur.stop := Nat.le_add_right _ _
  unfold Segment.stop at *
  omega

theorem mergeTwo_covers (cur next : Segment)
    (hle : cur.address ≤ next.address) (htouch : next.address ≤ cur.stop)
    (p : Nat) :
    ((mergeTwo cur next).covers p = true) ↔
      (cur.covers p = true ∨ next.covers p = true) := by
  rw [covers_iff, covers_iff, covers_iff, mergeTwo_stop, mergeTwo_address]
  have h1 : cur.address ≤ cur.stop := Nat.le_add_right _ _
  have h2 : next.address ≤ next.stop := Nat.le_add_right _ _
  omega

theorem mergeTwo_val_next (cur next : Segment)
    (hle : cur.address ≤ next.address) (p : Nat)
    (hc : next.covers p = true) :
    (mergeTwo cur next).val p = next.val p := by
  rw [covers_iff] at hc
  show (listSet (listSet (List.replicate (max cur.stop next.stop - cur.address) 0)
      0 cur.data) (next.address - cur.address) next.data).getD (p - cur.address) 0 =
    next.data.getD (p - next.address) 0
  have hlen1 : (listSet (List.replicate (max cur.stop next.stop - cur.address) 0)
      0 cur.data).length = max cur.stop next.stop - cur.address := by
    rw [listSet_length, List.length_replicate]
  have h2 : next.address ≤ next.stop := Nat.le_add_right _ _
  have hi : p - cur.address < (listSet (List.replicate
      (max cur.stop next.stop - cur.address) 0) 0 cur.data).length := by
    rw [hlen1]; omega
  rw [listSet_getD _ _ _ _ hi]
  rw [if_pos (by unfold Segment.stop at hc; omega)]
  congr 1
  omega

theorem mergeTwo_val_cur (cur next : Segment)
    (hle : cur.address ≤ next.address) (p : Nat)
    (hcc : cur.covers p = true) (hnc : next.covers p = false) :
    (mergeTwo cur next).val p = cur.val p := by
  rw [covers_iff] at hcc
  have hnc2 : ¬(next.address ≤ p ∧ p < next.stop) := by
    intro h; rw [← covers_iff] at h; simp [h] at hnc
  show (listSet (listSet (List.replicate (max cur.stop next.stop - cur.address) 0)
      0 cur.data) (next.address - cur.address) next.data).getD (p - cur.address) 0 =
    cur.data.getD (p - cur.address) 0
  have hlen1 : (listSet (List.replicate (max cur.stop next.stop - cur.address) 0)
      0 cur.data).length = max cur.stop next.stop - cur.address := by
    rw [listSet_length, List.length_replicate]
  have hi : p - cur.address < (listSet (List.replicate
      (max cur.stop next.stop - cur.address) 0) 0 cur.data).length := by
    rw [hlen1]; unfold Segment.stop at *; omega
  rw [listSet_getD _ _ _ _ hi]
  rw [if_neg (by unfold Segment.stop at *; omega)]
  have hi2 : p - cur.address <
      (List.replicate (max cur.stop next.stop - cur.address) 0).length := by
    rw [List.length_replicate]; unfold Segment.stop at *; omega
  rw [listSet_getD _ _ _ _ hi2]
  rw [if_pos (by unfold Segment.stop at *; omega)]
  simp

/-- Lower bound on addresses produced by the merge fold. -/
theorem mergeLoop_addr_lb (rest : List Segment) (cur : Segment)
    (hsort : List.Pairwise (fun a b : Segment => a.address ≤ b.address) (cur :: rest)) :
    ∀ s ∈ mergeLoop cur rest, cur.address ≤ s.address := by
  induction rest generalizing cur with
  | nil =>
    intro s hs
    rw [show mergeLoop cur [] = [cur] from rfl] at hs
    simp at hs; subst hs; exact Nat.le_refl _
  | cons next t ih =>
    intro s hs
    rw [List.pairwise_cons] at hsort
    obtain ⟨hcur, hsort2⟩ := hsort
    rw [show mergeLoop cur (next :: t) =
      if next.address ≤ cur.stop then mergeLoop (mergeTwo cur next) t
      else cur :: mergeLoop next t from rfl] at hs
    by_cases ht : next.address ≤ cur.stop
    · rw [if_pos ht] at hs
      have hsort3 : List.Pairwise (fun a b : Segment => a.address ≤ b.address)
          (mergeTwo cur next :: t) := by
        rw [List.pairwise_cons]
        refine ⟨fun b hb => ?_, (List.pairwise_cons.mp hsort2).2⟩
        rw [mergeTwo_address]
        exact hcur b (List.mem_cons_of_mem _ hb)
      have := ih (mergeTwo cur next) hsort3 s hs
      rwa [mergeTwo_address] at this
    · rw [if_neg ht] at hs
      rcases List.mem_cons.mp hs with rfl | hs2
      · exact Nat.le_refl _
      · exact Nat.le_trans (hcur next (List.mem_cons_self _ _)) (ih next hsort2 s hs2)

/-- The merge fold output is separated: sorted by address with each segment
ending strictly before the next begins. -/
theorem mergeLoop_sep (rest : List Segment) (cur : Segment)
    (hsort : List.Pairwise (fun a b : Segment => a.address ≤ b.address) (cur :: rest)) :
    Separated (mergeLoop cur rest) := by
  induction rest generalizing cur with
  | nil =>
    rw [show mergeLoop cur [] = [cur] from rfl]
    exact List.pairwise_singleton _ _
  | cons next t ih =>
    rw [List.pairwise_cons] at hsort
    obtain ⟨hcur, hsort2⟩ := hsort
    rw [show mergeLoop cur (next :: t) =
      if next.address ≤ cur.stop then mergeLoop (mergeTwo cur next) t
      else cur :: mergeLoop next t from rfl]
    by_cases ht : next.address ≤ cur.stop
    · rw [if_pos ht]
      apply ih
      rw [List.pairwise_cons]
      refine ⟨fun b hb => ?_, (List.pairwise_cons.mp hsort2).2⟩
      rw [mergeTwo_address]
      exact hcur b (List.mem_cons_of_mem _ hb)
    · rw [if_neg ht]
      unfold Separated
      rw [List.pairwise_cons]
      refine ⟨fun b hb => ?_, ih next hsort2⟩
      exact Nat.lt_of_lt_of_le (Nat.lt_of_not_le ht) (mergeLoop_addr_lb t next hsort2 b hb)

/-- The merge fold covers exactly the addresses its input covered. -/
theorem mergeLoop_cov (rest : List Segment) (cur : Segment)
    (hsort : List.Pairwise (fun a b : Segment => a.address ≤ b.address) (cur :: rest))
    (p : Nat) :
    (∃ s ∈ mergeLoop cur rest, s.covers p = true) ↔
      (∃ s ∈ cur :: rest, s.covers p = true) := by
  induction rest generalizing cur with
  | nil => rw [show mergeLoop cur [] = [cur] from rfl]
  | cons next t ih =>
    rw [List.pairwise_cons] at hsort
    obtain ⟨hcur, hsort2⟩ := hsort
    rw [show mergeLoop cur (next :: t) =
      if next.address ≤ cur.stop then mergeLoop (mergeTwo cur next) t
      else cur :: mergeLoop next t from rfl]
    by_cases ht : next.address ≤ cur.stop
    · rw [if_pos ht]
      have hsort3 : List.Pairwise (fun a b : Segment => a.address ≤ b.address)
          (mergeTwo cur next :: t) := by
        rw [List.pairwise_cons]
        refine ⟨fun b hb => ?_, (List.pairwise_cons.mp hsort2).2⟩
        rw [mergeTwo_address]
        exact hcur b (List.mem_cons_of_mem _ hb)
      rw [ih (mergeTwo cur next) hsort3]
      have hmt := mergeTwo_covers cur next (hcur next (List.mem_cons_self _ _)) ht p
      constructor
      · rintro ⟨s, hs, hc⟩
        rcases List.mem_cons.mp hs with rfl | hs2
        · rcases hmt.mp hc with h | h
          · exact ⟨cur, List.mem_cons_self _ _, h⟩
          · exact ⟨next, List.mem_cons_of_mem _ (List.mem_cons_self _ _), h⟩
        · exact ⟨s, List.mem_cons_of_mem _ (List.mem_cons_of_mem _ hs2), hc⟩
      · rintro ⟨s, hs, hc⟩
        rcases List.mem_cons.mp hs with rfl | hs2
        · exact ⟨mergeTwo s next, List.mem_cons_self _ _, hmt.mpr (Or.inl hc)⟩
        rcases List.mem_cons.mp hs2 with rfl | hs3
        · exact ⟨mergeTwo cur s, List.mem_cons_self _ _, hmt.mpr (Or.inr hc)⟩
        · exact ⟨s, List.mem_cons_of_mem _ hs3, hc⟩
    · rw [if_neg ht]
      constructor
      · rintro ⟨s, hs, hc⟩
        rcases List.mem_cons.mp hs with rfl | hs2
        · exact ⟨s, List.mem_cons_self _ _, hc⟩
        · rcases (ih next hsort2).mp ⟨s, hs2, hc⟩ with ⟨u, hu, hcu⟩
          exact ⟨u, List.mem_cons_of_mem _ hu, hcu⟩
      · rintro ⟨s, hs, hc⟩
        rcases List.mem_cons.mp hs with rfl | hs2
        · exact ⟨s, List.mem_cons_self _ _, hc⟩
        · rcases (ih next hsort2).mpr ⟨s, hs2, hc⟩ with ⟨u, hu, hcu⟩
          exact ⟨u, List.mem_cons_of_mem _ hu, hcu⟩

/-- If every input segment covering p stores v at p, so does every output
segment of the merge fold. -/
theorem mergeLoop_val (rest : List Segment) (cur : Segment)
    (hsort : List.Pairwise (fun a b : Segment => a.address ≤ b.address) (cur :: rest))
    (p v : Nat)
    (hag : ∀ s ∈ cur :: rest, s.covers p = true → s.val p = v) :
    ∀ s ∈ mergeLoop cur rest, s.covers p = true → s.val p = v := by
  induction rest generalizing cur with
  | nil =>
    rw [show mergeLoop cur [] = [cur] from rfl]
    exact hag
  | cons next t ih =>
    rw [List.pairwise_cons] at hsort
    obtain ⟨hcur, hsort2⟩ := hsort
    rw [show mergeLoop cur (next :: t) =
      if next.address ≤ cur.stop then mergeLoop (mergeTwo cur next) t
      else cur :: mergeLoop next t from rfl]
    by_cases ht : next.address ≤ cur.stop
    · rw [if_pos ht]
      have hle := hcur next (List.mem_cons_self _ _)
      have hsort3 : List.Pairwise (fun a b : Segment => a.address ≤ b.address)
          (mergeTwo cur next :: t) := by
        rw [List.pairwise_cons]
        refine ⟨fun b hb => ?_, (List.pairwise_cons.mp hsort2).2⟩
        rw [mergeTwo_address]
        exact hcur b (List.mem_cons_of_mem _ hb)
      apply ih (mergeTwo cur next) hsort3
      intro s hs hc
      rcases List.mem_cons.mp hs with rfl | hs2
      · by_cases hnx : next.covers p = true
        · rw [mergeTwo_val_next cur next hle p hnx]
          exact hag next (List.mem_cons_of_mem _ (List.mem_cons_self _ _)) hnx
        · have hcc : cur.covers p = true := by
            rcases (mergeTwo_covers cur next hle ht p).mp hc with h | h
            · exact h
            · exact absurd h hnx
          rw [mergeTwo_val_cur cur next hle p hcc (Bool.not_eq_true _ ▸ hnx)]
          exact hag cur (List.mem_cons_self _ _) hcc
      · exact hag s (List.mem_cons_of_mem _ (List.mem_cons_of_mem _ hs2)) hc
    · rw [if_neg ht]
      intro s hs hc
      rcases List.mem_cons.mp hs with rfl | hs2
      · exact hag s (List.mem_cons_self _ _) hc
      · exact ih next hsort2
          (fun u hu hcu => hag u (List.mem_cons_of_mem _ hu) hcu) s hs2 hc

theorem mergeSegmentsGeneric_sep (l : List Segment) :
    Separated (mergeSegmentsGeneric l) := by
  unfold mergeSegmentsGeneric
  by_cases h : l.length ≤ 1
  · rw [if_pos h]
    match l with
    | [] => exact List.Pairwise.nil
    | [a] => exact List.pairwise_singleton _ _
    | a :: b :: t => simp at h
  · rw [if_neg h]
    match hs : sortByAddress l with
    | [] => exact List.Pairwise.nil
    | s :: t =>
      have hsort := sortByAddress_sorted l
      rw [hs] at hsort
      exact mergeLoop_sep t s hsort

theorem mergeSegmentsGeneric_cov (l : List Segment) (p : Nat) :
    (∃ s ∈ mergeSegmentsGeneric l, s.covers p = true) ↔
      (∃ s ∈ l, s.covers p = true) := by
  unfold mergeSegmentsGeneric
  by_cases h : l.length ≤ 1
  · rw [if_pos h]
  · rw [if_neg h]
    have hperm := sortByAddress_perm l
    match hs : sortByAddress l with
    | [] =>
      rw [hs] at hperm
      have hnil : l = [] := hperm.symm.eq_nil
      exact absurd (by simp [hnil]) h
    | s :: t =>
      have hsort := sortByAddress_sorted l
      rw [hs] at hsort
      rw [mergeLoop_cov t s hsort]
      rw [hs] at hperm
      constructor
      · rintro ⟨u, hu, hc⟩; exact ⟨u, hperm.mem_iff.mp hu, hc⟩
      · rintro ⟨u, hu, hc⟩; exact ⟨u, hperm.mem_iff.mpr hu, hc⟩

theorem mergeSegmentsGeneric_val (l : List Segment) (p v : Nat)
    (hag : ∀ s ∈ l, s.covers p = true → s.val p = v) :
    ∀ s ∈ mergeSegmentsGeneric l, s.covers p = true → s.val p = v := by
  unfold mergeSegmentsGeneric
  by_cases h : l.length ≤ 1
  · rw [if_pos h]; exact hag
  · rw [if_neg h]
    have hperm := sortByAddress_perm l
    match hs : sortByAddress l with
    | [] => intro s hs2; simp at hs2
    | s :: t =>
      have hsort := sortByAddress_sorted l
      rw [hs] at hsort
      rw [hs] at hperm
      exact mergeLoop_val t s hsort p v
        (fun u hu hcu => hag u (hperm.mem_iff.mp hu) hcu)

/-- In a separated list the covering segment is unique, so _findSegment
returns it. -/
theorem findSegment_eq_of_sep {l : List Segment} (hsep : Separated l)
    {s : Segment} {p : Nat} (hm : s ∈ l) (hc : s.covers p = true) :
    findSegment p l = some s := by
  induction l with
  | nil => simp at hm
  | cons a t ih =>
    unfold Separated at hsep
    rw [List.pairwise_cons] at hsep
    obtain ⟨ha, hsep2⟩ := hsep
    rcases List.mem_cons.mp hm with rfl | hm2
    · simp [findSegment, hc]
    · have hna : a.covers p = false := by
        rw [covers_iff] at hc
        have := ha s hm2
        by_cases hap : a.covers p = true
        · rw [covers_iff] at hap; omega
        · simpa using hap
      simp only [findSegment, hna]
      rw [if_neg (by simp)]
      exact ih hsep2 hm2

/-- Package: if some input segment covers p and all input segments covering
p agree on the value v, the merged list finds a segment storing v at p. -/
theorem mergeSegmentsGeneric_lookup (l : List Segment) (p v : Nat)
    (hex : ∃ s ∈ l, s.covers p = true)
    (hag : ∀ s ∈ l, s.covers p = true → s.val p = v) :
    ∃ s, findSegment p (mergeSegmentsGeneric l) = some s ∧ s.val p = v := by
  rcases (mergeSegmentsGeneric_cov l p).mpr hex with ⟨s, hs, hc⟩
  refine ⟨s, findSegment_eq_of_sep (mergeSegmentsGeneric_sep l) hs hc, ?_⟩
  exact mergeSegmentsGeneric_val l p v hag s hs hc

/-- Package: if no input segment covers p, neither does the merged list. -/
theorem mergeSegmentsGeneric_none (l : List Segment) (p : Nat)
    (hno : ∀ s ∈ l, s.covers p = false) :
    findSegment p (mergeSegmentsGeneric l) = none := by
  by_cases h : findSegment p (mergeSegmentsGeneric l) = none
  · exact h
  · exfalso
    match hf : findSegment p (mergeSegmentsGeneric l) with
    | none => exact h hf
    | some s =>
      rcases findSegment_some hf with ⟨hm, hc⟩
      rcases (mergeSegmentsGeneric_cov l p).mp ⟨s, hm, hc⟩ with ⟨u, hu, hcu⟩
      rw [hno u hu] at hcu
      exact Bool.false_ne_true hcu

/-- Membership version of findSegment being none. -/
theorem findSegment_eq_none {l : List Segment} {p : Nat}
    (hno : ∀ s ∈ l, s.covers p = false) : findSegment p l = none := by
  induction l with
  | nil => rfl
  | cons a t ih =>
    have ha := hno a (List.mem_cons_self _ _)
    simp only [findSegment, ha]
    rw [if_neg (by simp)]
    exact ih (fun s hs => hno s (List.mem_cons_of_mem _ hs))

/-! Lemmas about flush / _mergeReadAndWriteWithPriority and the write
wrapper, leading to claim C1. -/

theorem foldl_length_invariant {α : Type} (g : List Nat → α → List Nat)
    (hg : ∀ d s, (g d s).length = d.length) (group : List α) (d : List Nat) :
    (group.foldl g d).length = d.length := by
  induction group generalizing d with
  | nil => rfl
  | cons a t ih => rw [List.foldl_cons, ih, hg]

theorem flushGroup_address (gs ge : Nat) (group : List ASeg) :
    (flushGroup gs ge group).address = gs := rfl

theorem flushGroup_stop (gs ge : Nat) (group : List ASeg) (h : gs ≤ ge) :
    (flushGroup gs ge group).stop = ge := by
  show gs + (flushGroup gs ge group).data.length = ge
  have h1 : (flushGroup gs ge group).data.length = ge - gs := by
    show (group.foldl _ (group.foldl _ (List.replicate (ge - gs) 0))).length = ge - gs
    rw [foldl_length_invariant _ (fun d s => by
      split
      · rw [listSet_length]
      · rfl)]
    rw [foldl_length_invariant _ (fun d s => by
      split
      · rfl
      · rw [listSet_length])]
    exact List.length_replicate _ _
  omega

theorem groupLoop_addr_lb (rest : List ASeg) (group : List ASeg) (gs ge : Nat)
    (hge : gs ≤ ge)
    (hsort : List.Pairwise (fun a b : ASeg => a.address ≤ b.address) rest)
    (hall : ∀ s ∈ rest, gs ≤ s.address) :
    ∀ s2 ∈ groupLoop group gs ge rest, gs ≤ s2.address := by
  induction rest generalizing group gs ge with
  | nil =>
    intro s2 hs2
    rw [show groupLoop group gs ge [] = [flushGroup gs ge group] from rfl] at hs2
    simp at hs2; subst hs2
    rw [flushGroup_address]
  | cons seg t ih =>
    rw [List.pairwise_cons] at hsort
    obtain ⟨hseg, hsort2⟩ := hsort
    intro s2 hs2
    rw [show groupLoop group gs ge (seg :: t) =
      if seg.address ≤ ge then groupLoop (group ++ [seg]) gs (max ge seg.stop) t
      else flushGroup gs ge group :: groupLoop [seg] seg.address seg.stop t from rfl] at hs2
    by_cases hto : seg.address ≤ ge
    · rw [if_pos hto] at hs2
      exact ih (group ++ [seg]) gs (max ge seg.stop) (Nat.le_trans hge (Nat.le_max_left _ _))
        hsort2 (fun s hs => hall s (List.mem_cons_of_mem _ hs)) s2 hs2
    · rw [if_neg hto] at hs2
      rcases List.mem_cons.mp hs2 with rfl | hs3
      · rw [flushGroup_address]
      · have := ih [seg] seg.address seg.stop (Nat.le_add_right _ _) hsort2 hseg s2 hs3
        exact Nat.le_trans (hall seg (List.mem_cons_self _ _)) this

theorem groupLoop_sep (rest : List ASeg) (group : List ASeg) (gs ge : Nat)
    (hge : gs ≤ ge)
    (hsort : List.Pairwise (fun a b : ASeg => a.address ≤ b.address) rest) :
    Separated (groupLoop group gs ge rest) := by
  induction rest generalizing group gs ge with
  | nil =>
    rw [show groupLoop group gs ge [] = [flushGroup gs ge group] from rfl]
    exact List.pairwise_singleton _ _
  | cons seg t ih =>
    rw [List.pairwise_cons] at hsort
    obtain ⟨hseg, hsort2⟩ := hsort
    rw [show groupLoop group gs ge (seg :: t) =
      if seg.address ≤ ge then groupLoop (group ++ [seg]) gs (max ge seg.stop) t
      else flushGroup gs ge group :: groupLoop [seg] seg.address seg.stop t from rfl]
    by_cases hto : seg.address ≤ ge
    · rw [if_pos hto]
      exact ih (group ++ [seg]) gs (max ge seg.stop)
        (Nat.le_trans hge (Nat.le_max_left _ _)) hsort2
    · rw [if_neg hto]
      unfold Separated
      rw [List.pairwise_cons]
      constructor
      · intro b hb
        have hlb := groupLoop_addr_lb t [seg] seg.address seg.stop
          (Nat.le_add_right _ _) hsort2 hseg b hb
        rw [flushGroup_stop gs ge group hge]
        omega
      · exact ih [seg] seg.address seg.stop (Nat.le_add_right _ _) hsort2

theorem sortASegs_sorted (l : List ASeg) :
    List.Pairwise (fun a b : ASeg => a.address ≤ b.address) (sortASegs l) := by
  unfold sortASegs
  have hs := List.sorted_insertionSort idxASegLE l.enum
  exact List.Pairwise.map Prod.snd (fun a b h => by
    rcases h with h | ⟨h, _⟩
    · exact Nat.le_of_lt h
    · exact Nat.le_of_eq h) hs

theorem mergeReadAndWriteWithPriority_sep (rl wl : List Segment) :
    Separated (mergeReadAndWriteWithPriority rl wl) := by
  unfold mergeReadAndWriteWithPriority
  by_cases h : rl.length = 0 ∧ wl.length = 0
  · rw [if_pos h]; exact List.Pairwise.nil
  · rw [if_neg h]
    show Separated (match sortASegs (rl.map (fun s => ASeg.mk s.address s.data false) ++
        wl.map (fun s => ASeg.mk s.address s.data true)) with
      | [] => []
      | s :: t => groupLoop [s] s.address s.stop t)
    cases hs : sortASegs (rl.map (fun s => ASeg.mk s.address s.data false) ++
        wl.map (fun s => ASeg.mk s.address s.data true)) with
    | nil => exact List.Pairwise.nil
    | cons s t =>
      have hsort := sortASegs_sorted (rl.map (fun s => ASeg.mk s.address s.data false) ++
        wl.map (fun s => ASeg.mk s.address s.data true))
      rw [hs, List.pairwise_cons] at hsort
      exact groupLoop_sep t [s] s.address s.stop (Nat.le_add_right _ _) hsort.2

theorem write_readBuffer (img : SparseImage) (a : Nat) (d : List Nat) :
    (write img a d).readBuffer = img.readBuffer := by
  unfold write
  split
  · dsimp only
    split
    · rfl
    · rfl
  · rfl

theorem write_size (img : SparseImage) (a : Nat) (d : List Nat) :
    (write img a d).size = img.size := by
  unfold write
  split
  · dsimp only
    split
    · rfl
    · rfl
  · rfl

theorem write_sectorSize (img : SparseImage) (a : Nat) (d : List Nat) :
    (write img a d).sectorSize = img.sectorSize := by
  unfold write
  split
  · dsimp only
    split
    · rfl
    · rfl
  · rfl

theorem write_writeBuffer_sep (img : SparseImage) (a : Nat) (d : List Nat)
    (hw : Separated img.writeBuffer) : Separated (write img a d).writeBuffer := by
  unfold write
  split
  · dsimp only
    split
    · exact hw
    · exact mergeSegmentsGeneric_sep _
  · exact hw

theorem flush_sep (img : SparseImage) (hr : Separated img.readBuffer) :
    Separated (flush img).readBuffer ∧ Separated (flush img).writeBuffer := by
  unfold flush
  split
  · rename_i hlen
    have hnil : img.writeBuffer = [] := List.length_eq_zero.mp hlen
    exact ⟨hr, by rw [hnil]; exact List.Pairwise.nil⟩
  · exact ⟨mergeReadAndWriteWithPriority_sep _ _, List.Pairwise.nil⟩

/-- C1: for every sequence of write and flush operations on a SparseImage
whose segment sets start out separated (as they do for a fresh image, whose
buffers are empty, and for an image wrapping a single full buffer), both the
read-segment set and the write-segment set are, after every operation,
sorted by ascending address with each segment ending strictly before the
next one begins (no overlapping or touching segments). -/
theorem C1_segment_invariant (img : SparseImage) (hr : Separated img.readBuffer)
    (hw : Separated img.writeBuffer) (ops : List Op) :
    Separated (runOps img ops).readBuffer ∧ Separated (runOps img ops).writeBuffer := by
  induction ops generalizing img with
  | nil => exact ⟨hr, hw⟩
  | cons op t ih =>
    have hstep : Separated (applyOp img op).readBuffer ∧
        Separated (applyOp img op).writeBuffer := by
      cases op with
      | opWrite a d =>
        exact ⟨by rw [show applyOp img (Op.opWrite a d) = write img a d from rfl,
          write_readBuffer]; exact hr,
          write_writeBuffer_sep img a d hw⟩
      | opFlush => exact flush_sep img hr
    exact ih (applyOp img op) hstep.1 hstep.2

/-- C1, witness: a concrete run (stage two overlapping writes, flush, stage
another write) on an initially cached 8 KiB image keeps both buffers
separated after the whole sequence. -/
theorem C1_segment_invariant_witness :
    Separated [Segment.mk 0 [1, 2, 3, 4]] ∧ Separated ([] : List Segment) ∧
    (Separated (runOps ⟨8192, 4096, [⟨0, [1, 2, 3, 4]⟩], []⟩
        [Op.opWrite 2 [9, 9, 9], Op.opWrite 4100 [7], Op.opFlush,
         Op.opWrite 0 [5]]).readBuffer ∧
      Separated (runOps ⟨8192, 4096, [⟨0, [1, 2, 3, 4]⟩], []⟩
        [Op.opWrite 2 [9, 9, 9], Op.opWrite 4100 [7], Op.opFlush,
         Op.opWrite 0 [5]]).writeBuffer) :=
  ⟨by decide, by decide,
    C1_segment_invariant ⟨8192, 4096, [⟨0, [1, 2, 3, 4]⟩], []⟩
      (by decide) (by decide) _⟩


theorem getD_replicate_lt (v n j : Nat) (h : j < n) :
    (List.replicate n v).getD j 0 = v := by
  rw [List.getD_eq_getElem?_getD, List.getElem?_eq_getElem (by simpa using h)]
  simp [List.getElem_replicate]

theorem overlaySeg_length (s e : Nat) (out : List Nat) (seg : Segment) :
    (overlaySeg s e out seg).length = out.length := by
  unfold overlaySeg
  dsimp only
  split
  · rw [listSet_length]
  · rfl

theorem foldl_overlaySeg_length (l : List Segment) (s e : Nat) (out : List Nat) :
    (l.foldl (overlaySeg s e) out).length = out.length := by
  induction l generalizing out with
  | nil => rfl
  | cons a t ih => rw [List.foldl_cons, ih, overlaySeg_length]

theorem overlaySeg_getD_cov (s e : Nat) (out : List Nat) (seg : Segment) (p : Nat)
    (hout : out.length = e - s) (hs : s ≤ p) (he : p < e)
    (hc : seg.covers p = true) :
    (overlaySeg s e out seg).getD (p - s) 0 = seg.val p := by
  rw [covers_iff] at hc
  unfold overlaySeg
  dsimp only
  have hstop : seg.stop = seg.address + seg.data.length := rfl
  rw [if_pos (by omega)]
  have hi : p - s < out.length := by omega
  rw [listSet_getD _ _ _ _ hi]
  have hsrclen : ((seg.data.drop (max s seg.address - seg.address)).take
      (min e seg.stop - max s seg.address)).length = min e seg.stop - max s seg.address := by
    rw [List.length_take, List.length_drop]
    omega
  rw [if_pos (by rw [hsrclen]; omega)]
  rw [takeDrop_getD _ _ _ _ (by omega)]
  show seg.data.getD _ 0 = seg.data.getD (p - seg.address) 0
  congr 1
  omega

theorem overlaySeg_getD_notcov (s e : Nat) (out : List Nat) (seg : Segment) (p : Nat)
    (hout : out.length = e - s) (hs : s ≤ p) (he : p < e)
    (hc : seg.covers p = false) :
    (overlaySeg s e out seg).getD (p - s) 0 = out.getD (p - s) 0 := by
  have hc2 : ¬(seg.address ≤ p ∧ p < seg.stop) := by
    intro h
    rw [← covers_iff] at h
    rw [h] at hc
    simp at hc
  unfold overlaySeg
  dsimp only
  split
  · rename_i ho
    have hi : p - s < out.length := by omega
    rw [listSet_getD _ _ _ _ hi]
    have hsrclen : ((seg.data.drop (max s seg.address - seg.address)).take
        (min e seg.stop - max s seg.address)).length =
        min e seg.stop - max s seg.address := by
      rw [List.length_take, List.length_drop]
      have hstop : seg.stop = seg.address + seg.data.length := rfl
      omega
    rw [if_neg (by rw [hsrclen]; omega)]
  · rfl

theorem foldl_overlaySeg_notcov (l : List Segment) (s e : Nat) (out : List Nat)
    (hout : out.length = e - s) (p : Nat) (hs : s ≤ p) (he : p < e)
    (hnc : ∀ seg ∈ l, seg.covers p = false) :
    (l.foldl (overlaySeg s e) out).getD (p - s) 0 = out.getD (p - s) 0 := by
  induction l generalizing out with
  | nil => rfl
  | cons a t ih =>
    rw [List.foldl_cons]
    rw [ih _ (by rw [overlaySeg_length]; exact hout)
      (fun seg hseg => hnc seg (List.mem_cons_of_mem _ hseg))]
    exact overlaySeg_getD_notcov s e out a p hout hs he (hnc a (List.mem_cons_self _ _))

theorem foldl_overlaySeg_getD (l : List Segment) (hsep : Separated l) (s e : Nat)
    (out : List Nat) (hout : out.length = e - s) (p : Nat) (hs : s ≤ p) (he : p < e) :
    (l.foldl (overlaySeg s e) out).getD (p - s) 0 =
      match findSegment p l with
      | some seg => seg.val p
      | none => out.getD (p - s) 0 := by
  induction l generalizing out with
  | nil => rfl
  | cons a t ih =>
    unfold Separated at hsep
    rw [List.pairwise_cons] at hsep
    obtain ⟨ha, hsep2⟩ := hsep
    rw [List.foldl_cons]
    by_cases hc : a.covers p = true
    · have hnct : ∀ seg ∈ t, seg.covers p = false := by
        intro seg hseg
        have hlt := ha seg hseg
        rw [covers_iff] at hc
        by_cases hcs : seg.covers p = true
        · rw [covers_iff] at hcs
          exfalso
          have : seg.address ≤ p := hcs.1
          have : p < a.stop := hc.2
          omega
        · simpa using hcs
      rw [foldl_overlaySeg_notcov t s e _ (by rw [overlaySeg_length]; exact hout) p hs he hnct]
      rw [overlaySeg_getD_cov s e out a p hout hs he hc]
      simp [findSegment, hc]
    · have hcf : a.covers p = false := by simpa using hc
      rw [ih hsep2 _ (by rw [overlaySeg_length]; exact hout)]
      rw [overlaySeg_getD_notcov s e out a p hout hs he hcf]
      simp [findSegment, hcf]

theorem materializeRange_length (rb wb : List Segment) (s e : Nat) :
    (materializeRange rb wb s e).length = e - s := by
  unfold materializeRange
  rw [foldl_overlaySeg_length, foldl_overlaySeg_length, List.length_replicate]

theorem materializeReadRange_length (rb : List Segment) (s e : Nat) :
    (materializeReadRange rb s e).length = e - s := by
  unfold materializeReadRange
  rw [foldl_overlaySeg_length, List.length_replicate]

theorem materializeRange_getD (rb wb : List Segment) (hsr : Separated rb)
    (hsw : Separated wb) (s e p : Nat) (hs : s ≤ p) (he : p < e) :
    (materializeRange rb wb s e).getD (p - s) 0 =
      match effVal wb rb p with
      | some v => v
      | none => 0xFF := by
  unfold materializeRange
  rw [foldl_overlaySeg_getD wb hsw s e _ (by
    rw [foldl_overlaySeg_length, List.length_replicate]) p hs he]
  unfold effVal
  cases hw : findSegment p wb with
  | some w => rfl
  | none =>
    rw [foldl_overlaySeg_getD rb hsr s e _ (by rw [List.length_replicate]) p hs he]
    cases hr : findSegment p rb with
    | some r => rfl
    | none => exact getD_replicate_lt _ _ _ (by omega)

theorem materializeReadRange_getD (rb : List Segment) (hsr : Separated rb)
    (s e p : Nat) (hs : s ≤ p) (he : p < e) :
    (materializeReadRange rb s e).getD (p - s) 0 =
      match findSegment p rb with
      | some r => r.val p
      | none => 0xFF := by
  unfold materializeReadRange
  rw [foldl_overlaySeg_getD rb hsr s e _ (by rw [List.length_replicate]) p hs he]
  cases hr : findSegment p rb with
  | some r => rfl
  | none => exact getD_replicate_lt _ _ _ (by omega)

theorem effVal_merge (wb rb : List Segment) (hsw : Separated wb) (p : Nat) :
    effVal (mergeSegmentsGeneric wb) rb p = effVal wb rb p := by
  cases h : findSegment p wb with
  | some w =>
    obtain ⟨hm, hc⟩ := findSegment_some h
    have hag : ∀ s ∈ wb, s.covers p = true → s.val p = w.val p := by
      intro s hs hcs
      have := findSegment_eq_of_sep hsw hs hcs
      rw [h] at this
      injection this with h2
      rw [h2]
    obtain ⟨s2, hfs2, hvs2⟩ := mergeSegmentsGeneric_lookup wb p (w.val p) ⟨w, hm, hc⟩ hag
    unfold effVal
    rw [hfs2, h]
    dsimp only
    rw [hvs2]
  | none =>
    have hno := findSegment_none h
    have := mergeSegmentsGeneric_none wb p hno
    unfold effVal
    rw [this, h]


theorem mk_covers_iff (a : Nat) (d : List Nat) (p : Nat) :
    (Segment.mk a d).covers p = true ↔ a ≤ p ∧ p < a + d.length := covers_iff _ _

theorem countMatch_le (cdata norm : List Nat) :
    ∀ (span offset noff : Nat), countMatch cdata norm offset noff span ≤ span := by
  intro span
  induction span with
  | zero => intro offset noff; exact Nat.le_refl _
  | succ n ih =>
    intro offset noff
    rw [show countMatch cdata norm offset noff (n + 1) =
      if cdata.getD offset 0 = norm.getD noff 0 % 256 then
        countMatch cdata norm (offset + 1) (noff + 1) n + 1
      else 0 from rfl]
    split
    · exact Nat.succ_le_succ (ih _ _)
    · exact Nat.zero_le _

theorem countMatch_spec (cdata norm : List Nat) :
    ∀ (span offset noff : Nat), ∀ k < countMatch cdata norm offset noff span,
      cdata.getD (offset + k) 0 = norm.getD (noff + k) 0 % 256 := by
  intro span
  induction span with
  | zero => intro offset noff k hk; simp [countMatch] at hk
  | succ n ih =>
    intro offset noff k hk
    rw [show countMatch cdata norm offset noff (n + 1) =
      if cdata.getD offset 0 = norm.getD noff 0 % 256 then
        countMatch cdata norm (offset + 1) (noff + 1) n + 1
      else 0 from rfl] at hk
    by_cases h : cdata.getD offset 0 = norm.getD noff 0 % 256
    · rw [if_pos h] at hk
      cases k with
      | zero => simpa using h
      | succ k2 =>
        have := ih (offset + 1) (noff + 1) k2 (by omega)
        rw [show offset + (k2 + 1) = offset + 1 + k2 by omega,
          show noff + (k2 + 1) = noff + 1 + k2 by omega]
        exact this
    · rw [if_neg h] at hk
      omega

theorem countMatch_full (cdata norm : List Nat) :
    ∀ (span offset noff : Nat),
      (∀ k < span, cdata.getD (offset + k) 0 = norm.getD (noff + k) 0 % 256) →
      countMatch cdata norm offset noff span = span := by
  intro span
  induction span with
  | zero => intro offset noff _; rfl
  | succ n ih =>
    intro offset noff hall
    rw [show countMatch cdata norm offset noff (n + 1) =
      if cdata.getD offset 0 = norm.getD noff 0 % 256 then
        countMatch cdata norm (offset + 1) (noff + 1) n + 1
      else 0 from rfl]
    rw [if_pos (by simpa using hall 0 (by omega))]
    rw [ih (offset + 1) (noff + 1) (fun k hk => by
      have := hall (k + 1) (by omega)
      rw [show offset + (k + 1) = offset + 1 + k by omega,
        show noff + (k + 1) = noff + 1 + k by omega] at this
      exact this)]

theorem foldl_preserve {A : Type} (P : Nat → Prop) (f : Nat → A → Nat)
    (hf : ∀ nb s, P nb → P (f nb s)) :
    ∀ (l : List A) (nb : Nat), P nb → P (l.foldl f nb) := by
  intro l
  induction l with
  | nil => intro nb h; exact h
  | cons a t ih =>
    intro nb h
    rw [List.foldl_cons]
    exact ih _ (hf nb a h)

theorem nextBoundary_gt (rb wb : List Segment) (ss pos limit : Nat)
    (h : pos < limit) : pos < nextBoundary rb wb ss pos limit := by
  unfold nextBoundary
  dsimp only
  have hfold : pos < (rb ++ wb).foldl
      (fun nb s =>
        let nb := if s.address > pos && s.address < nb then s.address else nb
        if s.stop > pos && s.stop < nb then s.stop else nb)
      limit := by
    apply foldl_preserve (fun nb => pos < nb)
    · intro nb s hnb
      dsimp only
      repeat' split
      all_goals
        simp only [Bool.and_eq_true, decide_eq_true_eq] at *
        omega
    · exact h
  repeat' split
  all_goals
    simp only [Bool.and_eq_true, decide_eq_true_eq] at *
    omega

theorem coveredFromAux_pointwise (list : List Segment) (e : Nat) :
    ∀ (fuel pos : Nat), coveredFromAux list e fuel pos = true →
      ∀ q, pos ≤ q → q < e → ∃ s, findSegment q list = some s := by
  intro fuel
  induction fuel with
  | zero =>
    intro pos h q hq1 hq2
    rw [show coveredFromAux list e 0 pos = decide (e ≤ pos) from rfl] at h
    rw [decide_eq_true_eq] at h
    omega
  | succ f ih =>
    intro pos h q hq1 hq2
    rw [show coveredFromAux list e (f + 1) pos =
      if pos < e then
        match findSegment pos list with
        | none => false
        | some seg => coveredFromAux list e f seg.stop
      else true from rfl] at h
    rw [if_pos (by omega)] at h
    cases hf : findSegment pos list with
    | none => rw [hf] at h; exact absurd h (by simp)
    | some seg =>
      rw [hf] at h
      obtain ⟨hm, hc⟩ := findSegment_some hf
      by_cases hq3 : q < seg.stop
      · rw [covers_iff] at hc
        have : seg.covers q = true := by
          rw [covers_iff]
          omega
        have hs := findSegment_isSome_of_mem hm this
        cases hfq : findSegment q list with
        | none => rw [hfq] at hs; exact absurd hs (by simp)
        | some s2 => exact ⟨s2, rfl⟩
      · exact ih seg.stop h q (by omega) hq2

theorem coveredAnyFromAux_of_pointwise (wb rb : List Segment) (e : Nat) :
    ∀ (fuel pos : Nat), e - pos ≤ fuel →
      (∀ q, pos ≤ q → q < e →
        (findSegment q wb).isSome = true ∨ (findSegment q rb).isSome = true) →
      coveredAnyFromAux wb rb e fuel pos = true := by
  intro fuel
  induction fuel with
  | zero =>
    intro pos hfuel hpt
    rw [show coveredAnyFromAux wb rb e 0 pos = decide (e ≤ pos) from rfl]
    rw [decide_eq_true_eq]
    omega
  | succ f ih =>
    intro pos hfuel hpt
    rw [show coveredAnyFromAux wb rb e (f + 1) pos =
      if pos < e then
        match findSegment pos wb with
        | some w => coveredAnyFromAux wb rb e f (min e w.stop)
        | none =>
          match findSegment pos rb with
          | some r => coveredAnyFromAux wb rb e f (min e r.stop)
          | none => false
      else true from rfl]
    by_cases hp : pos < e
    · rw [if_pos hp]
      cases hw : findSegment pos wb with
      | some w =>
        have hc := (findSegment_some hw).2
        rw [covers_iff] at hc
        exact ih (min e w.stop) (by omega)
          (fun q hq1 hq2 => hpt q (by omega) hq2)
      | none =>
        cases hr : findSegment pos rb with
        | some r =>
          have hc := (findSegment_some hr).2
          rw [covers_iff] at hc
          exact ih (min e r.stop) (by omega)
            (fun q hq1 hq2 => hpt q (by omega) hq2)
        | none =>
          rcases hpt pos (Nat.le_refl _) hp with h | h
          · rw [hw] at h; exact absurd h (by simp)
          · rw [hr] at h; exact absurd h (by simp)
    · rw [if_neg hp]

theorem getByte_of_effVal (img : SparseImage) (p v : Nat) (hlt : p < img.size)
    (h : effVal img.writeBuffer img.readBuffer p = some v) : getByte img p = v := by
  unfold getByte get
  rw [if_pos hlt]
  unfold effVal at h
  cases hw : findSegment p img.writeBuffer with
  | some w =>
    rw [hw] at h
    simpa using h
  | none =>
    rw [hw] at h
    cases hr : findSegment p img.readBuffer with
    | some r =>
      rw [hr] at h
      simpa using h
    | none => rw [hr] at h; exact absurd h (by simp)


theorem pruneSegs_forward (cs ce : Nat) (wb : List Segment) :
    ∀ s2 ∈ pruneSegs cs ce wb, ∀ q, s2.covers q = true →
      ¬(cs ≤ q ∧ q < ce) ∧ ∃ s ∈ wb, s.covers q = true ∧ s2.val q = s.val q := by
  induction wb with
  | nil => intro s2 hs2; simp [pruneSegs] at hs2
  | cons seg t ih =>
    intro s2 hs2 q hc
    rw [show pruneSegs cs ce (seg :: t) =
      if seg.stop ≤ cs || seg.address ≥ ce then seg :: pruneSegs cs ce t
      else
        (if seg.address < cs then
          if 0 < (seg.data.take (cs - seg.address)).length then
            [⟨seg.address, seg.data.take (cs - seg.address)⟩] else []
        else []) ++
        (if seg.stop > ce then
          if 0 < (seg.data.drop (ce - seg.address)).length then
            [⟨ce, seg.data.drop (ce - seg.address)⟩] else []
        else []) ++ pruneSegs cs ce t from rfl] at hs2
    have hstop : seg.stop = seg.address + seg.data.length := rfl
    by_cases hout : (seg.stop ≤ cs || seg.address ≥ ce) = true
    · rw [if_pos hout] at hs2
      rcases List.mem_cons.mp hs2 with rfl | hs3
      · refine ⟨?_, s2, List.mem_cons_self _ _, hc, rfl⟩
        rw [covers_iff] at hc
        rw [Bool.or_eq_true] at hout
        simp only [decide_eq_true_eq] at hout
        omega
      · obtain ⟨hn, s, hsm, hcs, hval⟩ := ih s2 hs3 q hc
        exact ⟨hn, s, List.mem_cons_of_mem _ hsm, hcs, hval⟩
    · rw [if_neg hout] at hs2
      rw [Bool.or_eq_true] at hout
      simp only [decide_eq_true_eq] at hout
      push_neg at hout
      rcases List.mem_append.mp hs2 with hs3 | hs3
      · rcases List.mem_append.mp hs3 with hs4 | hs4
        · -- left piece
          split at hs4
          · split at hs4
            · have hseq : s2 = Segment.mk seg.address (seg.data.take (cs - seg.address)) := by
                simpa using hs4
              subst hseq
              rw [mk_covers_iff] at hc
              rw [List.length_take] at hc
              have hql : q < cs := by omega
              constructor
              · omega
              · refine ⟨seg, List.mem_cons_self _ _, ?_, ?_⟩
                · rw [covers_iff]
                  omega
                · show (seg.data.take (cs - seg.address)).getD (q - seg.address) 0 =
                    seg.data.getD (q - seg.address) 0
                  exact getD_take _ _ _ (by omega)
            · simp at hs4
          · simp at hs4
        · -- right piece
          split at hs4
          · split at hs4
            · have hseq : s2 = Segment.mk ce (seg.data.drop (ce - seg.address)) := by
                simpa using hs4
              subst hseq
              rw [mk_covers_iff] at hc
              rw [List.length_drop] at hc
              rename_i hgt hlen
              constructor
              · omega
              · refine ⟨seg, List.mem_cons_self _ _, ?_, ?_⟩
                · rw [covers_iff]
                  omega
                · show (seg.data.drop (ce - seg.address)).getD (q - ce) 0 =
                    seg.data.getD (q - seg.address) 0
                  rw [getD_drop]
                  congr 1
                  omega
            · simp at hs4
          · simp at hs4
      · obtain ⟨hn, s, hsm, hcs, hval⟩ := ih s2 hs3 q hc
        exact ⟨hn, s, List.mem_cons_of_mem _ hsm, hcs, hval⟩

theorem pruneSegs_backward (cs ce : Nat) (wb : List Segment) :
    ∀ s ∈ wb, ∀ q, s.covers q = true → ¬(cs ≤ q ∧ q < ce) →
      ∃ s2 ∈ pruneSegs cs ce wb, s2.covers q = true := by
  induction wb with
  | nil => intro s hs; simp at hs
  | cons seg t ih =>
    intro s hs q hc hq
    rw [show pruneSegs cs ce (seg :: t) =
      if seg.stop ≤ cs || seg.address ≥ ce then seg :: pruneSegs cs ce t
      else
        (if seg.address < cs then
          if 0 < (seg.data.take (cs - seg.address)).length then
            [⟨seg.address, seg.data.take (cs - seg.address)⟩] else []
        else []) ++
        (if seg.stop > ce then
          if 0 < (seg.data.drop (ce - seg.address)).length then
            [⟨ce, seg.data.drop (ce - seg.address)⟩] else []
        else []) ++ pruneSegs cs ce t from rfl]
    have hstop : seg.stop = seg.address + seg.data.length := rfl
    rcases List.mem_cons.mp hs with rfl | hs2
    · by_cases hout : (s.stop ≤ cs || s.address ≥ ce) = true
      · rw [if_pos hout]
        exact ⟨s, List.mem_cons_self _ _, hc⟩
      · rw [if_neg hout]
        rw [Bool.or_eq_true] at hout
        simp only [decide_eq_true_eq] at hout
        push_neg at hout
        rw [covers_iff] at hc
        by_cases hql : q < cs
        · refine ⟨Segment.mk s.address (s.data.take (cs - s.address)),
            List.mem_append.mpr (Or.inl (List.mem_append.mpr (Or.inl ?_))), ?_⟩
          · rw [if_pos (by omega)]
            rw [if_pos (by rw [List.length_take]; unfold Segment.stop at *; omega)]
            exact List.mem_singleton.mpr rfl
          · rw [mk_covers_iff, List.length_take]
            unfold Segment.stop at *
            omega
        · have hqr : ce ≤ q := by omega
          refine ⟨Segment.mk ce (s.data.drop (ce - s.address)),
            List.mem_append.mpr (Or.inl (List.mem_append.mpr (Or.inr ?_))), ?_⟩
          · rw [if_pos (show s.stop > ce from by unfold Segment.stop at *; omega)]
            rw [if_pos (by rw [List.length_drop]; unfold Segment.stop at *; omega)]
            exact List.mem_singleton.mpr rfl
          · rw [mk_covers_iff, List.length_drop]
            unfold Segment.stop at *
            omega
    · obtain ⟨s2, hs3, hc2⟩ := ih s hs2 q hc hq
      by_cases hout : (seg.stop ≤ cs || seg.address ≥ ce) = true
      · rw [if_pos hout]
        exact ⟨s2, List.mem_cons_of_mem _ hs3, hc2⟩
      · rw [if_neg hout]
        exact ⟨s2, List.mem_append.mpr (Or.inr hs3), hc2⟩


theorem coveredFrom_pointwise (list : List Segment) (a e : Nat)
    (h : coveredFrom list a e = true) :
    ∀ q, a ≤ q → q < e → ∃ s, findSegment q list = some s :=
  coveredFromAux_pointwise list e (e - a) a h

theorem pruneSector_effVal (rb : List Segment) (hsr : Separated rb) (size ss : Nat)
    (wb : List Segment) (hsw : Separated wb) (cs q : Nat) :
    effVal (pruneSector rb size ss wb cs) rb q = effVal wb rb q ∧
    Separated (pruneSector rb size ss wb cs) := by
  unfold pruneSector
  dsimp only
  split
  · rename_i hcov
    split
    · rename_i hident
      obtain ⟨hlen, hid⟩ := hident
      constructor
      · by_cases hqin : cs ≤ q ∧ q < min (cs + ss) size
        · -- inside the pruned sector: write coverage dropped, value agreed with read
          have hnone : findSegment q (mergeSegmentsGeneric
              (pruneSegs cs (min (cs + ss) size) wb)) = none := by
            apply mergeSegmentsGeneric_none
            intro s2 hs2
            by_cases hc2 : s2.covers q = true
            · obtain ⟨hn, _⟩ := pruneSegs_forward cs (min (cs + ss) size) wb s2 hs2 q hc2
              exact absurd hqin hn
            · simpa using hc2
          obtain ⟨r, hr⟩ := coveredFrom_pointwise rb cs (min (cs + ss) size) hcov q
            hqin.1 hqin.2
          have hbq := congrArg (fun l => l.getD (q - cs) 0) hid
          dsimp only at hbq
          rw [materializeRange_getD rb wb hsr hsw cs (min (cs + ss) size) q hqin.1 hqin.2,
            materializeReadRange_getD rb hsr cs (min (cs + ss) size) q hqin.1 hqin.2] at hbq
          rw [hr] at hbq
          unfold effVal
          rw [hnone, hr]
          cases hw : findSegment q wb with
          | none => rfl
          | some w =>
            unfold effVal at hbq
            rw [hw] at hbq
            dsimp only at hbq
            dsimp only
            rw [hbq]
        · -- outside the pruned sector: coverage and values preserved
          cases hw : findSegment q wb with
          | some w =>
            obtain ⟨hm, hc⟩ := findSegment_some hw
            obtain ⟨s2, hs2m, hs2c⟩ := pruneSegs_backward cs (min (cs + ss) size) wb
              w hm q hc hqin
            have hag : ∀ u ∈ pruneSegs cs (min (cs + ss) size) wb,
                u.covers q = true → u.val q = w.val q := by
              intro u hu hcu
              obtain ⟨_, s, hsm, hsc, hval⟩ := pruneSegs_forward cs
                (min (cs + ss) size) wb u hu q hcu
              have := findSegment_eq_of_sep hsw hsm hsc
              rw [hw] at this
              injection this with h2
              rw [hval, h2]
            obtain ⟨s3, hf3, hv3⟩ := mergeSegmentsGeneric_lookup _ q (w.val q)
              ⟨s2, hs2m, hs2c⟩ hag
            unfold effVal
            rw [hf3, hw]
            dsimp only
            rw [hv3]
          | none =>
            have hnone : findSegment q (mergeSegmentsGeneric
                (pruneSegs cs (min (cs + ss) size) wb)) = none := by
              apply mergeSegmentsGeneric_none
              intro s2 hs2
              by_cases hc2 : s2.covers q = true
              · obtain ⟨_, s, hsm, hsc, _⟩ := pruneSegs_forward cs
                  (min (cs + ss) size) wb s2 hs2 q hc2
                have := findSegment_none hw s hsm
                rw [hsc] at this
                exact absurd this (by simp)
              · simpa using hc2
            unfold effVal
            rw [hnone, hw]
      · exact mergeSegmentsGeneric_sep _
    · exact ⟨rfl, hsw⟩
  · exact ⟨rfl, hsw⟩

theorem foldl_pruneSector_effVal (rb : List Segment) (hsr : Separated rb)
    (size ss : Nat) (ts : List Nat) :
    ∀ (wb : List Segment), Separated wb →
      Separated (ts.foldl (pruneSector rb size ss) wb) ∧
      (∀ q, effVal (ts.foldl (pruneSector rb size ss) wb) rb q = effVal wb rb q) := by
  induction ts with
  | nil => exact fun wb hsw => ⟨hsw, fun q => rfl⟩
  | cons c t ih =>
    intro wb hsw
    rw [List.foldl_cons]
    obtain ⟨hsep2, hval2⟩ := ih (pruneSector rb size ss wb c)
      (pruneSector_effVal rb hsr size ss wb hsw c 0).2
    refine ⟨hsep2, fun q => ?_⟩
    rw [hval2 q, (pruneSector_effVal rb hsr size ss wb hsw c q).1]


theorem getD_lt_256 (l : List Nat) (j : Nat) (hj : j < l.length)
    (hb : ∀ b ∈ l, b < 256) : l.getD j 0 < 256 := by
  rw [List.getD_eq_getElem?_getD, List.getElem?_eq_getElem hj]
  exact hb _ (List.getElem_mem hj)

theorem covg_addSegment (wb : List Segment) (a : Nat) (d : List Nat) (q : Nat) :
    (∃ s2 ∈ addSegment wb a d, s2.covers q = true) ↔
      ((∃ s ∈ wb, s.covers q = true) ∨ (a ≤ q ∧ q < a + d.length)) := by
  unfold addSegment
  rw [mergeSegmentsGeneric_cov]
  constructor
  · rintro ⟨s, hs, hc⟩
    rcases List.mem_append.mp hs with hs2 | hs2
    · exact Or.inl ⟨s, hs2, hc⟩
    · have : s = Segment.mk a d := by simpa using hs2
      subst this
      rw [mk_covers_iff] at hc
      exact Or.inr hc
  · rintro (⟨s, hs, hc⟩ | hrange)
    · exact ⟨s, List.mem_append.mpr (Or.inl hs), hc⟩
    · exact ⟨Segment.mk a d, List.mem_append.mpr (Or.inr (List.mem_singleton.mpr rfl)),
        (mk_covers_iff a d q).mpr hrange⟩

theorem effVal_addSegment (wb rb : List Segment) (hsw : Separated wb) (a : Nat)
    (d : List Nat) (V : Nat → Nat)
    (hNval : ∀ q, a ≤ q → q < a + d.length → d.getD (q - a) 0 = V q)
    (hagree : ∀ s ∈ wb, ∀ q, s.covers q = true → a ≤ q → q < a + d.length →
      s.val q = V q) :
    (∀ q, a ≤ q → q < a + d.length → effVal (addSegment wb a d) rb q = some (V q)) ∧
    (∀ q, q < a ∨ a + d.length ≤ q →
      effVal (addSegment wb a d) rb q = effVal wb rb q) := by
  have hagQ : ∀ q, ∀ s ∈ wb ++ [Segment.mk a d], s.covers q = true →
      (a ≤ q ∧ q < a + d.length) → s.val q = V q := by
    intro q s hs hc hq
    rcases List.mem_append.mp hs with hs2 | hs2
    · exact hagree s hs2 q hc hq.1 hq.2
    · have : s = Segment.mk a d := by simpa using hs2
      subst this
      show d.getD (q - a) 0 = V q
      exact hNval q hq.1 hq.2
  constructor
  · intro q hq1 hq2
    obtain ⟨s2, hf2, hv2⟩ := mergeSegmentsGeneric_lookup
      (wb ++ [Segment.mk a d]) q (V q)
      ⟨Segment.mk a d, List.mem_append.mpr (Or.inr (List.mem_singleton.mpr rfl)),
        (mk_covers_iff a d q).mpr ⟨hq1, hq2⟩⟩
      (fun s hs hc => hagQ q s hs hc ⟨hq1, hq2⟩)
    show effVal (mergeSegmentsGeneric (wb ++ [Segment.mk a d])) rb q = some (V q)
    unfold effVal
    rw [hf2]
    dsimp only
    rw [hv2]
  · intro q hq
    cases hw : findSegment q wb with
    | some w =>
      obtain ⟨hm, hc⟩ := findSegment_some hw
      have hag2 : ∀ s ∈ wb ++ [Segment.mk a d], s.covers q = true →
          s.val q = w.val q := by
        intro s hs hc2
        rcases List.mem_append.mp hs with hs2 | hs2
        · have := findSegment_eq_of_sep hsw hs2 hc2
          rw [hw] at this
          injection this with h2
          rw [h2]
        · have : s = Segment.mk a d := by simpa using hs2
          subst this
          rw [mk_covers_iff] at hc2
          omega
      obtain ⟨s2, hf2, hv2⟩ := mergeSegmentsGeneric_lookup
        (wb ++ [Segment.mk a d]) q (w.val q)
        ⟨w, List.mem_append.mpr (Or.inl hm), hc⟩ hag2
      show effVal (mergeSegmentsGeneric (wb ++ [Segment.mk a d])) rb q = _
      unfold effVal
      rw [hf2, hw]
      dsimp only
      rw [hv2]
    | none =>
      have hnone : findSegment q (addSegment wb a d) = none := by
        apply mergeSegmentsGeneric_none
        intro s hs
        by_cases hc : s.covers q = true
        · exfalso
          rcases List.mem_append.mp hs with hs2 | hs2
          · have := findSegment_none hw s hs2
            rw [hc] at this
            exact absurd this (by simp)
          · have : s = Segment.mk a d := by simpa using hs2
            subst this
            rw [mk_covers_iff] at hc
            omega
        · simpa using hc
      show effVal (addSegment wb a d) rb q = _
      unfold effVal
      rw [hnone, hw]


theorem slice_length (norm : List Nat) (start pos writeEnd endA : Nat)
    (hsp : start ≤ pos) (hpw : pos ≤ writeEnd) (hwe : writeEnd ≤ endA)
    (hlen : endA ≤ start + norm.length) :
    ((norm.drop (pos - start)).take (writeEnd - pos)).length = writeEnd - pos := by
  rw [List.length_take, List.length_drop]
  omega

theorem stageStep_inv (rb : List Segment) (start endA : Nat)
    (norm : List Nat) (hlen : endA ≤ start + norm.length)
    (wb : List Segment) (hsw : Separated wb) (pos writeEnd : Nat)
    (hsp : start ≤ pos) (hpw : pos < writeEnd) (hwe : writeEnd ≤ endA)
    (hI2 : ∀ p, start ≤ p → p < pos → effVal wb rb p = some (norm.getD (p - start) 0))
    (hI3 : ∀ s ∈ wb, ∀ p, pos ≤ p → p < endA → s.covers p = false) :
    Separated (mergeSegmentsGeneric (addSegment wb pos
      ((norm.drop (pos - start)).take (writeEnd - pos)))) ∧
    (∀ p, start ≤ p → p < writeEnd →
      effVal (mergeSegmentsGeneric (addSegment wb pos
        ((norm.drop (pos - start)).take (writeEnd - pos)))) rb p =
        some (norm.getD (p - start) 0)) ∧
    (∀ s ∈ mergeSegmentsGeneric (addSegment wb pos
        ((norm.drop (pos - start)).take (writeEnd - pos))),
      ∀ p, writeEnd ≤ p → p < endA → s.covers p = false) := by
  have hslice : ((norm.drop (pos - start)).take (writeEnd - pos)).length =
      writeEnd - pos := slice_length norm start pos writeEnd endA hsp (by omega) hwe hlen
  have hS := effVal_addSegment wb rb hsw pos
    ((norm.drop (pos - start)).take (writeEnd - pos))
    (fun q => norm.getD (q - start) 0)
    (by
      intro q hq1 hq2
      rw [hslice] at hq2
      rw [takeDrop_getD _ _ _ _ (by omega)]
      congr 1
      omega)
    (by
      intro s hs q hc hq1 hq2
      rw [hslice] at hq2
      have := hI3 s hs q hq1 (by omega)
      rw [hc] at this
      exact absurd this (by simp))
  obtain ⟨hin, hout⟩ := hS
  rw [hslice] at hin hout
  have haddsep : Separated (addSegment wb pos
      ((norm.drop (pos - start)).take (writeEnd - pos))) := mergeSegmentsGeneric_sep _
  refine ⟨mergeSegmentsGeneric_sep _, ?_, ?_⟩
  · intro p hp1 hp2
    rw [effVal_merge _ rb haddsep p]
    by_cases hpp : p < pos
    · rw [hout p (Or.inl hpp)]
      exact hI2 p hp1 hpp
    · exact hin p (by omega) (by omega)
  · intro s hs p hp1 hp2
    by_cases hc : s.covers p = true
    · exfalso
      have hex : ∃ s2 ∈ addSegment wb pos
          ((norm.drop (pos - start)).take (writeEnd - pos)), s2.covers p = true := by
        rw [← mergeSegmentsGeneric_cov]
        exact ⟨s, hs, hc⟩
      rw [covg_addSegment] at hex
      rcases hex with ⟨s3, hs3, hc3⟩ | hrange
      · have := hI3 s3 hs3 p (by omega) hp2
        rw [hc3] at this
        exact absurd this (by simp)
      · rw [hslice] at hrange
        omega
    · simpa using hc

theorem sectorStep_inv (rb : List Segment) (hsr : Separated rb)
    (ss size start endA : Nat) (norm : List Nat)
    (hss : 0 < ss) (hendA : endA ≤ size) (hlen : endA ≤ start + norm.length)
    (wb : List Segment) (hsw : Separated wb) (pos : Nat)
    (hsp : start ≤ pos) (hpe : pos < endA)
    (hI2 : ∀ p, start ≤ p → p < pos → effVal wb rb p = some (norm.getD (p - start) 0))
    (hI3 : ∀ s ∈ wb, ∀ p, pos ≤ p → p < endA → s.covers p = false) :
    Separated (addSegment wb (pos / ss * ss)
      (listSet (materializeRange rb wb (pos / ss * ss) (min (pos / ss * ss + ss) size))
        (pos - pos / ss * ss)
        ((norm.drop (pos - start)).take (min endA (min (pos / ss * ss + ss) size) - pos)))) ∧
    (∀ p, start ≤ p → p < min endA (min (pos / ss * ss + ss) size) →
      effVal (addSegment wb (pos / ss * ss)
        (listSet (materializeRange rb wb (pos / ss * ss) (min (pos / ss * ss + ss) size))
          (pos - pos / ss * ss)
          ((norm.drop (pos - start)).take
            (min endA (min (pos / ss * ss + ss) size) - pos)))) rb p =
        some (norm.getD (p - start) 0)) ∧
    (∀ s ∈ addSegment wb (pos / ss * ss)
        (listSet (materializeRange rb wb (pos / ss * ss) (min (pos / ss * ss + ss) size))
          (pos - pos / ss * ss)
          ((norm.drop (pos - start)).take
            (min endA (min (pos / ss * ss + ss) size) - pos))),
      ∀ p, min endA (min (pos / ss * ss + ss) size) ≤ p → p < endA →
        s.covers p = false) := by
  set cs := pos / ss * ss with hcs
  set ce := min (cs + ss) size with hce
  set we := min endA ce with hwe
  have h1 : cs ≤ pos := Nat.div_mul_le_self pos ss
  have h2 : pos < cs + ss := Nat.lt_div_mul_add hss
  have h3 : pos < ce := by omega
  have h4 : pos < we := by omega
  have h5 : we ≤ endA := by omega
  have hslice : ((norm.drop (pos - start)).take (we - pos)).length = we - pos :=
    slice_length norm start pos we endA hsp (by omega) h5 hlen
  have hbuflen : (listSet (materializeRange rb wb cs ce) (pos - cs)
      ((norm.drop (pos - start)).take (we - pos))).length = ce - cs := by
    rw [listSet_length, materializeRange_length]
  have hbufval : ∀ q, cs ≤ q → q < ce →
      (listSet (materializeRange rb wb cs ce) (pos - cs)
        ((norm.drop (pos - start)).take (we - pos))).getD (q - cs) 0 =
      (if pos ≤ q ∧ q < we then norm.getD (q - start) 0
       else match effVal wb rb q with | some v => v | none => 0xFF) := by
    intro q hq1 hq2
    rw [listSet_getD _ _ _ _ (by rw [materializeRange_length]; omega)]
    rw [hslice]
    by_cases hqr : pos - cs ≤ q - cs ∧ q - cs < pos - cs + (we - pos)
    · rw [if_pos hqr, if_pos (by omega)]
      rw [takeDrop_getD _ _ _ _ (by omega)]
      congr 1
      omega
    · rw [if_neg hqr, if_neg (by omega)]
      exact materializeRange_getD rb wb hsr hsw cs ce q hq1 hq2
  have hS := effVal_addSegment wb rb hsw cs
    (listSet (materializeRange rb wb cs ce) (pos - cs)
      ((norm.drop (pos - start)).take (we - pos)))
    (fun q => (listSet (materializeRange rb wb cs ce) (pos - cs)
      ((norm.drop (pos - start)).take (we - pos))).getD (q - cs) 0)
    (fun q _ _ => rfl)
    (by
      intro s hs q hc hq1 hq2
      rw [hbuflen] at hq2
      show s.val q = (listSet (materializeRange rb wb cs ce) (pos - cs)
        ((norm.drop (pos - start)).take (we - pos))).getD (q - cs) 0
      rw [hbufval q hq1 (by omega)]
      rw [if_neg (by
        intro hin
        have := hI3 s hs q hin.1 (by omega)
        rw [hc] at this
        exact absurd this (by simp))]
      have hfw : findSegment q wb = some s := findSegment_eq_of_sep hsw hs hc
      unfold effVal
      rw [hfw])
  obtain ⟨hin, hout⟩ := hS
  rw [hbuflen] at hin hout
  refine ⟨mergeSegmentsGeneric_sep _, ?_, ?_⟩
  · intro p hp1 hp2
    by_cases hpcs : p < cs
    · rw [hout p (Or.inl hpcs)]
      exact hI2 p hp1 (by omega)
    · rw [hin p (by omega) (by omega)]
      show some ((listSet (materializeRange rb wb cs ce) (pos - cs)
        ((norm.drop (pos - start)).take (we - pos))).getD (p - cs) 0) =
        some (norm.getD (p - start) 0)
      rw [hbufval p (by omega) (by omega)]
      by_cases hpp : pos ≤ p ∧ p < we
      · rw [if_pos hpp]
      · rw [if_neg hpp]
        have hI2p := hI2 p hp1 (by omega)
        rw [hI2p]
  · intro s hs p hp1 hp2
    by_cases hc : s.covers p = true
    · exfalso
      have hex : (∃ s2 ∈ addSegment wb cs
          (listSet (materializeRange rb wb cs ce) (pos - cs)
            ((norm.drop (pos - start)).take (we - pos))), s2.covers p = true) :=
        ⟨s, hs, hc⟩
      rw [covg_addSegment] at hex
      rcases hex with ⟨s3, hs3, hc3⟩ | hrange
      · have := hI3 s3 hs3 p (by omega) hp2
        rw [hc3] at this
        exact absurd this (by simp)
      · rw [hbuflen] at hrange
        omega
    · simpa using hc


theorem writeLoop_spec (rb : List Segment) (hsr : Separated rb)
    (ss size start endA : Nat) (norm : List Nat)
    (hss : 0 < ss) (hendA : endA ≤ size) (hlen : endA ≤ start + norm.length)
    (hnb : ∀ b ∈ norm, b < 256) :
    ∀ (fuel : Nat) (st : WriteLoopState),
      endA - st.pos ≤ fuel → start ≤ st.pos → st.pos ≤ endA →
      Separated st.wb →
      (∀ p, start ≤ p → p < st.pos →
        effVal st.wb rb p = some (norm.getD (p - start) 0)) →
      (∀ s ∈ st.wb, ∀ p, st.pos ≤ p → p < endA → s.covers p = false) →
      Separated (writeLoop rb ss size start endA norm fuel st).1 ∧
      (∀ p, start ≤ p → p < endA →
        effVal (writeLoop rb ss size start endA norm fuel st).1 rb p =
          some (norm.getD (p - start) 0)) := by
  intro fuel
  induction fuel with
  | zero =>
    intro st hfuel hsp hpe hsw hI2 hI3
    exact ⟨hsw, fun p hp1 hp2 => hI2 p hp1 (by omega)⟩
  | succ f ihf =>
    intro st hfuel hsp hpe hsw hI2 hI3
    simp only [writeLoop]
    by_cases hlt : st.pos < endA
    · rw [if_pos hlt]
      cases hw : findSegment st.pos st.wb with
      | some wseg =>
        obtain ⟨hm, hc⟩ := findSegment_some hw
        have := hI3 wseg hm st.pos (Nat.le_refl _) hlt
        rw [hc] at this
        exact absurd this (by simp)
      | none =>
        cases hr : findSegment st.pos rb with
        | some cseg =>
          dsimp only
          obtain ⟨hcm, hcc⟩ := findSegment_some hr
          rw [covers_iff] at hcc
          have hstop : cseg.stop = cseg.address + cseg.data.length := rfl
          by_cases hml : 0 < countMatch cseg.data norm (st.pos - cseg.address)
              (st.pos - start) (min (endA - st.pos) (cseg.data.length - (st.pos - cseg.address)))
          · rw [if_pos hml]
            have hmlle := countMatch_le cseg.data norm
              (min (endA - st.pos) (cseg.data.length - (st.pos - cseg.address)))
              (st.pos - cseg.address) (st.pos - start)
            apply ihf
            · show endA - (st.pos + _) ≤ f
              omega
            · show start ≤ st.pos + _
              omega
            · show st.pos + _ ≤ endA
              omega
            · exact hsw
            · intro p hp1 hp2
              have hp2x : p < st.pos + countMatch cseg.data norm (st.pos - cseg.address)
                  (st.pos - start)
                  (min (endA - st.pos) (cseg.data.length - (st.pos - cseg.address))) := hp2
              by_cases hpo : p < st.pos
              · exact hI2 p hp1 hpo
              · show effVal st.wb rb p = _
                have hk : p = st.pos + (p - st.pos) := by omega
                have hkm := countMatch_spec cseg.data norm
                  (min (endA - st.pos) (cseg.data.length - (st.pos - cseg.address)))
                  (st.pos - cseg.address) (st.pos - start) (p - st.pos) (by omega)
                have hwp : findSegment p st.wb = none := by
                  apply findSegment_eq_none
                  intro s hs
                  exact hI3 s hs p (by omega) (by omega)
                have hcp : cseg.covers p = true := by
                  rw [covers_iff, hstop]
                  omega
                have hrp : findSegment p rb = some cseg :=
                  findSegment_eq_of_sep hsr hcm hcp
                unfold effVal
                rw [hwp, hrp]
                dsimp only
                show some (cseg.data.getD (p - cseg.address) 0) = _
                rw [show p - cseg.address = st.pos - cseg.address + (p - st.pos)
                  from by omega]
                rw [hkm]
                rw [show st.pos - start + (p - st.pos) = p - start from by omega]
                rw [Nat.mod_eq_of_lt (getD_lt_256 norm (p - start) (by omega)
                  (fun b hb => hnb b hb))]
            · intro s hs p hp1 hp2
              have hp1x : st.pos + countMatch cseg.data norm (st.pos - cseg.address)
                  (st.pos - start)
                  (min (endA - st.pos) (cseg.data.length - (st.pos - cseg.address))) ≤ p := hp1
              exact hI3 s hs p (by omega) hp2
          · rw [if_neg hml]
            by_cases hfull : coveredFrom rb (st.pos / ss * ss)
                (min (st.pos / ss * ss + ss) size) = true
            · rw [if_pos hfull]
              obtain ⟨hs2, hv2, hn2⟩ := sectorStep_inv rb hsr ss size start endA norm
                hss hendA hlen st.wb hsw st.pos hsp hlt hI2 hI3
              apply ihf
              · show endA - min endA (min (st.pos / ss * ss + ss) size) ≤ f
                have h1 : st.pos < st.pos / ss * ss + ss := Nat.lt_div_mul_add hss
                omega
              · show start ≤ min endA (min (st.pos / ss * ss + ss) size)
                have h1 : st.pos < st.pos / ss * ss + ss := Nat.lt_div_mul_add hss
                omega
              · show min endA (min (st.pos / ss * ss + ss) size) ≤ endA
                omega
              · exact hs2
              · exact hv2
              · exact hn2
            · rw [if_neg hfull]
              have hnbgt := nextBoundary_gt rb st.wb ss st.pos endA hlt
              obtain ⟨hs2, hv2, hn2⟩ := stageStep_inv rb start endA norm hlen st.wb hsw
                st.pos (min (nextBoundary rb st.wb ss st.pos endA) endA)
                hsp (by omega) (by omega) hI2 hI3
              apply ihf
              · show endA - min (nextBoundary rb st.wb ss st.pos endA) endA ≤ f
                omega
              · show start ≤ min (nextBoundary rb st.wb ss st.pos endA) endA
                omega
              · show min (nextBoundary rb st.wb ss st.pos endA) endA ≤ endA
                omega
              · exact hs2
              · exact hv2
              · exact hn2
        | none =>
          dsimp only
          have hnbgt := nextBoundary_gt rb st.wb ss st.pos endA hlt
          obtain ⟨hs2, hv2, hn2⟩ := stageStep_inv rb start endA norm hlen st.wb hsw
            st.pos (min (nextBoundary rb st.wb ss st.pos endA) endA)
            hsp (by omega) (by omega) hI2 hI3
          apply ihf
          · show endA - min (nextBoundary rb st.wb ss st.pos endA) endA ≤ f
            omega
          · show start ≤ min (nextBoundary rb st.wb ss st.pos endA) endA
            omega
          · show min (nextBoundary rb st.wb ss st.pos endA) endA ≤ endA
            omega
          · exact hs2
          · exact hv2
          · exact hn2
    · rw [if_neg hlt]
      exact ⟨hsw, fun p hp1 hp2 => hI2 p hp1 (by omega)⟩


theorem write_wb_eq (img : SparseImage) (A : Nat) (B : List Nat)
    (hne : B ≠ []) (hb : ∀ b ∈ B, b < 256)
    (hbound : A + B.length ≤ img.size) :
    (write img A B).writeBuffer = mergeSegmentsGeneric
      ((writeLoop img.readBuffer (effSectorSize img) img.size A (A + B.length) B
        (A + B.length - A) ⟨img.writeBuffer, [], A⟩).2.foldl
        (pruneSector img.readBuffer img.size (effSectorSize img))
        (writeLoop img.readBuffer (effSectorSize img) img.size A (A + B.length) B
        (A + B.length - A) ⟨img.writeBuffer, [], A⟩).1) := by
  have hlen0 : 0 < B.length := List.length_pos.mpr hne
  unfold write
  rw [if_pos (show A < img.size from by omega)]
  dsimp only
  rw [map_mod_eq_self B hb, Nat.min_eq_left hbound]
  rw [if_neg (show ¬(A + B.length ≤ A) from by omega)]

theorem write_effVal (img : SparseImage) (A : Nat) (B : List Nat)
    (hne : B ≠ []) (hb : ∀ b ∈ B, b < 256)
    (hbound : A + B.length ≤ img.size)
    (hsr : Separated img.readBuffer) (hsw : Separated img.writeBuffer)
    (hnw : ∀ s ∈ img.writeBuffer, ∀ p, A ≤ p → p < A + B.length →
      s.covers p = false) :
    Separated (write img A B).writeBuffer ∧
    (∀ p, A ≤ p → p < A + B.length →
      effVal (write img A B).writeBuffer img.readBuffer p =
        some (B.getD (p - A) 0)) := by
  have hlen0 : 0 < B.length := List.length_pos.mpr hne
  rw [write_wb_eq img A B hne hb hbound]
  obtain ⟨hsepr, hvalr⟩ := writeLoop_spec img.readBuffer hsr (effSectorSize img)
    img.size A (A + B.length) B (effSectorSize_pos img) hbound (by omega) hb
    (A + B.length - A) ⟨img.writeBuffer, [], A⟩ (Nat.le_refl _) (Nat.le_refl _)
    (Nat.le_add_right A B.length) hsw
    (fun p hp1 hp2 => absurd (show p < A from hp2) (Nat.not_lt.mpr hp1)) hnw
  obtain ⟨hsep2, hval2⟩ := foldl_pruneSector_effVal img.readBuffer hsr img.size
    (effSectorSize img)
    (writeLoop img.readBuffer (effSectorSize img) img.size A (A + B.length) B
      (A + B.length - A) ⟨img.writeBuffer, [], A⟩).2
    (writeLoop img.readBuffer (effSectorSize img) img.size A (A + B.length) B
      (A + B.length - A) ⟨img.writeBuffer, [], A⟩).1 hsepr
  refine ⟨mergeSegmentsGeneric_sep _, fun p hp1 hp2 => ?_⟩
  rw [effVal_merge _ _ hsep2 p, hval2 p, hvalr p hp1 hp2]


theorem ensureLoop_covered (cb : Option ReadCb) (address size : Nat)
    (safety : Nat) (hs : 0 < safety) (img : SparseImage)
    (h : coveredAnyFrom img.writeBuffer img.readBuffer address (address + size) = true) :
    ensureLoop cb address size safety img = img := by
  cases safety with
  | zero => omega
  | succ n => simp [ensureLoop, h]

theorem materializeReadRange_lt_256 (rb : List Segment) (hsr : Separated rb)
    (hrbb : ∀ s ∈ rb, ∀ b ∈ s.data, b < 256) (a e : Nat) :
    ∀ b ∈ materializeReadRange rb a e, b < 256 := by
  intro b hb
  obtain ⟨i, hi, hget⟩ := List.mem_iff_getElem.mp hb
  have hlen : (materializeReadRange rb a e).length = e - a :=
    materializeReadRange_length rb a e
  have hgd : (materializeReadRange rb a e).getD i 0 = b := by
    rw [List.getD_eq_getElem?_getD, List.getElem?_eq_getElem hi, hget]
    rfl
  have hmg := materializeReadRange_getD rb hsr a e (a + i) (by omega) (by omega)
  rw [show a + i - a = i from by omega, hgd] at hmg
  cases hfs : findSegment (a + i) rb with
  | some r =>
    rw [hfs] at hmg
    dsimp only at hmg
    obtain ⟨hm, hc⟩ := findSegment_some hfs
    rw [covers_iff] at hc
    have hidx : a + i - r.address < r.data.length := by
      have : r.stop = r.address + r.data.length := rfl
      omega
    rw [show r.val (a + i) = r.data.getD (a + i - r.address) 0 from rfl] at hmg
    rw [List.getD_eq_getElem?_getD, List.getElem?_eq_getElem hidx] at hmg
    rw [hmg]
    exact hrbb r hm _ (List.getElem_mem hidx)
  | none =>
    rw [hfs] at hmg
    dsimp only at hmg
    omega

theorem writeLoop_skip (rb : List Segment) (hsr : Separated rb)
    (ss size start endA : Nat) (norm : List Nat) :
    ∀ (fuel : Nat) (st : WriteLoopState),
      start ≤ st.pos →
      (∀ p, st.pos ≤ p → p < endA → ∃ cseg, findSegment p rb = some cseg) →
      (∀ p, st.pos ≤ p → p < endA → ∀ c, findSegment p rb = some c →
        c.data.getD (p - c.address) 0 = norm.getD (p - start) 0 % 256) →
      (∀ s ∈ st.wb, ∀ p, st.pos ≤ p → p < endA → s.covers p = false) →
      writeLoop rb ss size start endA norm fuel st = (st.wb, st.ts) := by
  intro fuel
  induction fuel with
  | zero => intro st _ _ _ _; rfl
  | succ f ih =>
    intro st hsp hcovp hvalp hnw
    simp only [writeLoop]
    by_cases hlt : st.pos < endA
    · rw [if_pos hlt]
      cases hw : findSegment st.pos st.wb with
      | some wseg =>
        obtain ⟨hm, hc⟩ := findSegment_some hw
        have := hnw wseg hm st.pos (Nat.le_refl _) hlt
        rw [hc] at this
        exact absurd this (by simp)
      | none =>
        obtain ⟨cseg, hr⟩ := hcovp st.pos (Nat.le_refl _) hlt
        rw [hr]
        dsimp only
        have hcc := (findSegment_some hr).2
        rw [covers_iff] at hcc
        have hstop : cseg.stop = cseg.address + cseg.data.length := rfl
        have hfull := countMatch_full cseg.data norm
          (min (endA - st.pos) (cseg.data.length - (st.pos - cseg.address)))
          (st.pos - cseg.address) (st.pos - start) (by
            intro k hk
            have hp1 : st.pos ≤ st.pos + k := by omega
            have hp2 : st.pos + k < endA := by omega
            have hcp : cseg.covers (st.pos + k) = true := by
              rw [covers_iff, hstop]
              omega
            have hrp : findSegment (st.pos + k) rb =
                some cseg := findSegment_eq_of_sep hsr (findSegment_some hr).1 hcp
            have hv := hvalp (st.pos + k) hp1 hp2 cseg hrp
            rw [show st.pos + k - cseg.address = st.pos - cseg.address + k
              from by omega] at hv
            rw [show st.pos + k - start = st.pos - start + k from by omega] at hv
            exact hv)
        rw [if_pos (show 0 < countMatch cseg.data norm (st.pos - cseg.address)
          (st.pos - start)
          (min (endA - st.pos) (cseg.data.length - (st.pos - cseg.address))) from by
            rw [hfull]; omega)]
        exact ih ⟨st.wb, st.ts, st.pos + countMatch cseg.data norm
            (st.pos - cseg.address) (st.pos - start)
            (min (endA - st.pos) (cseg.data.length - (st.pos - cseg.address)))⟩
          (by show start ≤ st.pos + _; omega)
          (fun p hp1 hp2 => hcovp p (by
            have : st.pos + 0 ≤ st.pos + countMatch cseg.data norm
              (st.pos - cseg.address) (st.pos - start)
              (min (endA - st.pos) (cseg.data.length - (st.pos - cseg.address))) := by
                omega
            have hx : st.pos + countMatch cseg.data norm
              (st.pos - cseg.address) (st.pos - start)
              (min (endA - st.pos) (cseg.data.length - (st.pos - cseg.address))) ≤ p := hp1
            omega) hp2)
          (fun p hp1 hp2 => hvalp p (by
            have hx : st.pos + countMatch cseg.data norm
              (st.pos - cseg.address) (st.pos - start)
              (min (endA - st.pos) (cseg.data.length - (st.pos - cseg.address))) ≤ p := hp1
            omega) hp2)
          (fun s hs p hp1 hp2 => hnw s hs p (by
            have hx : st.pos + countMatch cseg.data norm
              (st.pos - cseg.address) (st.pos - start)
              (min (endA - st.pos) (cseg.data.length - (st.pos - cseg.address))) ≤ p := hp1
            omega) hp2)
    · rw [if_neg hlt]

/-! Claim C4: wear-leveling sector translation. -/

/-- C4, counterexample: the claim states the translated index is incremented
by one exactly when it is below totalRecords.  With moveCount = 2,
fatSectors = 10, totalRecords = 3 and logical sector 0, the translated base
(0 + 2) % 10 = 2 is below totalRecords = 3, yet wlTranslateSector returns 2,
not 2 + 1: the code increments in the opposite case. -/
theorem C4_counterexample :
    (0 + 2) % 10 < 3 ∧ wlTranslateSector 2 10 3 0 ≠ (0 + 2) % 10 + 1 := by
  decide

/-- C4, amended: wlTranslateSector computes (sector + moveCount) mod
fatSectors and increments the result by one exactly when the translated
index is greater than or equal to totalRecords (i.e. when it falls outside
the first totalRecords sectors). -/
theorem C4_wlTranslateSector_bump (moveCount fatSectors totalRecords sector : Nat)
    (hfs : 0 < fatSectors) :
    (wlTranslateSector moveCount fatSectors totalRecords sector =
        (sector + moveCount) % fatSectors + 1 ↔
      totalRecords ≤ (sector + moveCount) % fatSectors) ∧
    (wlTranslateSector moveCount fatSectors totalRecords sector =
        (sector + moveCount) % fatSectors ↔
      (sector + moveCount) % fatSectors < totalRecords) := by
  dsimp only [wlTranslateSector]
  split <;> omega

/-- C4, witness: the amended theorem applied at the wear-leveling scenario
of the specification (moveCount 2, fatSectors 10, totalRecords 3,
sector 0). -/
theorem C4_wlTranslateSector_bump_witness :
    0 < 10 ∧
    ((wlTranslateSector 2 10 3 0 = (0 + 2) % 10 + 1 ↔ 3 ≤ (0 + 2) % 10) ∧
      (wlTranslateSector 2 10 3 0 = (0 + 2) % 10 ↔ (0 + 2) % 10 < 3)) :=
  ⟨by decide, C4_wlTranslateSector_bump 2 10 3 0 (by decide)⟩

/-! Claim C10: SLIP encode/decode round trip. -/

theorem slipDecode_escape (p : List Nat) (buf rest : List Nat) :
    slipDecode ⟨buf, false⟩ (slipEscape p ++ rest) =
      slipDecode ⟨buf ++ p, false⟩ rest := by
  induction p generalizing buf with
  | nil => simp [slipEscape]
  | cons b t ih =>
    by_cases h1 : b = 0xC0
    · subst h1
      rw [show slipEscape (0xC0 :: t) = 0xDB :: 0xDC :: slipEscape t from rfl]
      simp only [List.cons_append, slipDecode]
      norm_num
      rw [ih]
      simp
    · by_cases h2 : b = 0xDB
      · subst h2
        rw [show slipEscape (0xDB :: t) = 0xDB :: 0xDD :: slipEscape t from rfl]
        simp only [List.cons_append, slipDecode]
        norm_num
        rw [ih]
        simp
      · rw [show slipEscape (b :: t) = b :: slipEscape t from by
          simp [slipEscape, h1, h2]]
        simp only [List.cons_append, slipDecode]
        simp only [h1, h2, if_false, List.append_eq]
        norm_num
        rw [ih]
        simp

/-- C10: for every non-empty packet p and the decoder in its initial state
(empty pending buffer, not escaping), decoding the SLIP encoding of p
(p wrapped between 0xC0 delimiters with 0xC0 escaped as 0xDB 0xDC and 0xDB
escaped as 0xDB 0xDD) yields exactly the single packet p and returns the
decoder to its initial state. -/
theorem C10_slip_roundtrip (p : List Nat) (hp : p ≠ []) :
    slipDecode slipInit (slipEncode p) = ([p], slipInit) := by
  unfold slipEncode slipInit
  rw [show (0xC0 : Nat) :: slipEscape p ++ [0xC0] =
    0xC0 :: (slipEscape p ++ [0xC0]) from rfl]
  rw [show slipDecode ⟨[], false⟩ (0xC0 :: (slipEscape p ++ [0xC0])) =
    slipDecode ⟨[], false⟩ (slipEscape p ++ [0xC0]) from by simp [slipDecode]]
  rw [slipDecode_escape]
  have hlen : 0 < p.length := List.length_pos.mpr hp
  simp [slipDecode, hlen]

/-- C10, witness: round trip at the concrete packet [1, 0xC0, 0xDB]
containing both escapable bytes. -/
theorem C10_slip_roundtrip_witness :
    ([1, 0xC0, 0xDB] : List Nat) ≠ [] ∧
    slipDecode slipInit (slipEncode [1, 0xC0, 0xDB]) =
      ([[1, 0xC0, 0xDB]], slipInit) :=
  ⟨by decide, C10_slip_roundtrip [1, 0xC0, 0xDB] (by decide)⟩

/-! Claim C7: behaviour of the cache-fill loop when the callback makes no
progress. -/

/-- C7, counterexample: with a read callback that returns nothing (no
progress on the very first gap), _ensureDataUnlocked on an empty 16-byte
image returns successfully with the image unchanged, although the requested
range [0, 4) is still completely uncovered — no coverage error is surfaced,
contradicting the claim. -/
theorem C7_counterexample :
    ensureDataUnlocked (some fun _ _ => none) ⟨16, 4096, [], []⟩ 0 4 =
      Except.ok ⟨16, 4096, [], []⟩ ∧
    coveredAnyFrom ([] : List Segment) ([] : List Segment) 0 4 = false := by
  exact ⟨rfl, by decide⟩

/-- C7, amended: the fill loop of _ensureDataUnlocked never raises a
coverage error.  For every in-bounds start address the operation returns
successfully (the break on a no-progress callback and the exhaustion of the
64-iteration safety cap both simply end the loop, possibly leaving part of
the requested range uncovered); only an out-of-bounds start address raises
an error. -/
theorem C7_ensure_returns_ok (cb : Option ReadCb) (img : SparseImage)
    (address size : Nat) (h : address < img.size) :
    (∃ img2, ensureDataUnlocked cb img address size = Except.ok img2) ∧
    (∀ img3 address2 size2, img3.size ≤ address2 →
      ensureDataUnlocked cb img3 address2 size2 =
        Except.error "Address out of bounds") := by
  constructor
  · exact ⟨_, by unfold ensureDataUnlocked; rw [if_pos h]⟩
  · intro img3 address2 size2 h2
    unfold ensureDataUnlocked
    rw [if_neg (by omega)]

/-- C7, witness: the amended theorem applied to a no-progress callback on an
empty 16-byte image. -/
theorem C7_witness :
    (0 : Nat) < 16 ∧
    ((∃ img2, ensureDataUnlocked (some fun _ _ => none) ⟨16, 4096, [], []⟩ 0 4 =
        Except.ok img2) ∧
      (∀ img3 address2 size2, img3.size ≤ address2 →
        ensureDataUnlocked (some fun _ _ => none) img3 address2 size2 =
          Except.error "Address out of bounds")) :=
  ⟨by decide, C7_ensure_returns_ok (some fun _ _ => none) ⟨16, 4096, [], []⟩ 0 4 (by decide)⟩

/-! Claim C8: OTA entry validity and active-entry selection. -/

set_option maxRecDepth 8000 in
/-- C8: OTADataParser.initialize decodes the two otadata entries; an entry
is marked valid iff its sequence is not all-ones, its state is neither
INVALID (3) nor ABORTED (4) and its stored CRC32 equals the CRC32 computed
over the 4-byte sequence field; the active entry is the valid entry with
the higher sequence when both are valid (index 1 on a tie), the sole valid
entry when exactly one is valid, and none otherwise.  In particular the
scenario entries {seq 5, state VALID, valid CRC} and {seq 3, state VALID,
valid CRC} select entry index 0. -/
theorem C8_ota_initialize (data : List Nat) :
    ((otaInitialize data).1 = [otaEntryAt data 0, otaEntryAt data 1]) ∧
    (∀ e ∈ (otaInitialize data).1,
      (e.isValid = true ↔
        (e.sequence ≠ 0xFFFFFFFF ∧ e.otaState ≠ 0x3 ∧ e.otaState ≠ 0x4 ∧
          e.crcValid = true)) ∧
      (e.crcValid = true ↔
        e.crc = calculateCRC32
          ((List.range 4).map (fun j => getU8 data (e.index * 0x1000 + j))))) ∧
    ((otaEntryAt data 0).isValid = true → (otaEntryAt data 1).isValid = true →
      ((otaInitialize data).2 = some 0 ↔
        (otaEntryAt data 1).sequence < (otaEntryAt data 0).sequence) ∧
      ((otaInitialize data).2 = some 1 ↔
        ¬((otaEntryAt data 1).sequence < (otaEntryAt data 0).sequence))) ∧
    ((otaEntryAt data 0).isValid = true → (otaEntryAt data 1).isValid = false →
      (otaInitialize data).2 = some 0) ∧
    ((otaEntryAt data 0).isValid = false → (otaEntryAt data 1).isValid = true →
      (otaInitialize data).2 = some 1) ∧
    ((otaEntryAt data 0).isValid = false → (otaEntryAt data 1).isValid = false →
      (otaInitialize data).2 = none) ∧
    (otaInitialize (mkOtaPage 5 2 (calculateCRC32 [5, 0, 0, 0]) ++
        mkOtaPage 3 2 (calculateCRC32 [3, 0, 0, 0]))).2 = some 0 := by
  refine ⟨rfl, ?_, ?_, ?_, ?_, ?_, by decide⟩
  · intro e he
    have he2 : e = otaEntryAt data 0 ∨ e = otaEntryAt data 1 := by
      simpa [otaInitialize] using he
    rcases he2 with rfl | rfl <;>
      simp [otaEntryAt, getU8] <;> tauto
  · intro h0 h1
    simp only [otaInitialize, h0, h1]
    norm_num
  · intro h0 h1
    simp [otaInitialize, h0, h1]
  · intro h0 h1
    simp [otaInitialize, h0, h1]
  · intro h0 h1
    simp [otaInitialize, h0, h1]

/-! Claim C9: flash-read integrity failure on digest mismatch. -/

theorem readFlashRun_payload (md5hex : List Nat → String) (totalLength maxInFlight : Nat)
    (ps : List (List Nat)) (st : ReadFlashState) (g : List Nat)
    (hlen : st.data.length + ps.join.length = totalLength)
    (hne : ∀ f ∈ ps, f ≠ []) :
    ∃ la, readFlashRun md5hex totalLength maxInFlight st (ps ++ [g]) =
      readFlashRun md5hex totalLength maxInFlight ⟨st.data ++ ps.join, la⟩ [g] := by
  induction ps generalizing st with
  | nil =>
    exact ⟨st.lastAckedLength, by simp⟩
  | cons f t ih =>
    have hf : f ≠ [] := hne f (List.mem_cons_self _ _)
    have hflen : 0 < f.length := List.length_pos.mpr hf
    have hjoin : (f :: t).join.length = f.length + t.join.length := by simp
    have hlt : st.data.length < totalLength := by omega
    rw [List.cons_append]
    rw [show readFlashRun md5hex totalLength maxInFlight st (f :: (t ++ [g])) =
      match readFlashRawHandler md5hex totalLength maxInFlight st f with
      | (st2, FlashAction.proceed, _) => readFlashRun md5hex totalLength maxInFlight st2 (t ++ [g])
      | (_, FlashAction.resolved v, _) => some (Except.ok v)
      | (_, FlashAction.rejected m, _) => some (Except.error m) from rfl]
    unfold readFlashRawHandler
    rw [if_neg (by omega)]
    have hlen2 : (st.data ++ f).length + t.join.length = totalLength := by
      have h3 := hlen
      rw [hjoin] at h3
      simp only [List.length_append]
      omega
    by_cases hc : (st.data ++ f).length ≥ st.lastAckedLength + maxInFlight ∨
        (st.data ++ f).length ≥ totalLength
    · rw [if_pos hc]
      obtain ⟨la, heq⟩ := ih ⟨st.data ++ f, min (st.lastAckedLength + maxInFlight) totalLength⟩
        hlen2 (fun u hu => hne u (List.mem_cons_of_mem _ hu))
      refine ⟨la, ?_⟩
      dsimp only
      rw [heq]
      simp
    · rw [if_neg hc]
      obtain ⟨la, heq⟩ := ih ⟨st.data ++ f, st.lastAckedLength⟩
        hlen2 (fun u hu => hne u (List.mem_cons_of_mem _ hu))
      refine ⟨la, ?_⟩
      dsimp only
      rw [heq]
      simp

/-- C9: in the readFlashPlain pipeline, when the 16-byte digest frame
received after exactly totalLength accumulated payload bytes differs (as the
case-insensitive hex the code compares) from the digest computed locally
over the accumulated payload by the configured digest primitive, the
operation rejects with the MD5-mismatch integrity error and never resolves
with the payload. -/
theorem C9_readFlash_md5_mismatch (md5hex : List Nat → String)
    (totalLength maxInFlight : Nat) (ps : List (List Nat)) (g : List Nat)
    (hsum : ps.join.length = totalLength)
    (hne : ∀ f ∈ ps, f ≠ [])
    (hg : g.length = 16)
    (hmm : toLowerStr (md5hex ps.join) ≠ toLowerStr (toHexLower g)) :
    readFlashRun md5hex totalLength maxInFlight ⟨[], 0⟩ (ps ++ [g]) =
      some (Except.error
        ("MD5 mismatch! Expected: " ++ toHexLower g ++ ", Got: " ++ md5hex ps.join)) ∧
    ∀ v, readFlashRun md5hex totalLength maxInFlight ⟨[], 0⟩ (ps ++ [g]) ≠
      some (Except.ok v) := by
  obtain ⟨la, heq⟩ := readFlashRun_payload md5hex totalLength maxInFlight ps ⟨[], 0⟩ g
    (by simpa using hsum) hne
  have hstep : readFlashRun md5hex totalLength maxInFlight ⟨[] ++ ps.join, la⟩ [g] =
      some (Except.error
        ("MD5 mismatch! Expected: " ++ toHexLower g ++ ", Got: " ++ md5hex ps.join)) := by
    rw [show readFlashRun md5hex totalLength maxInFlight ⟨[] ++ ps.join, la⟩ [g] =
      match readFlashRawHandler md5hex totalLength maxInFlight ⟨[] ++ ps.join, la⟩ g with
      | (st2, FlashAction.proceed, _) => readFlashRun md5hex totalLength maxInFlight st2 []
      | (_, FlashAction.resolved v, _) => some (Except.ok v)
      | (_, FlashAction.rejected m, _) => some (Except.error m) from rfl]
    unfold readFlashRawHandler
    rw [if_pos (by simpa using hsum)]
    rw [if_pos hg]
    rw [if_neg (by simpa using hmm)]
    simp
  constructor
  · rw [heq, hstep]
  · intro v
    rw [heq, hstep]
    intro hcontra
    simp at hcontra

/-- C9, witness: one 1-byte payload frame followed by a mismatching
16-byte digest frame rejects. -/
theorem C9_witness :
    ((([[1]] : List (List Nat)).join.length = 1) ∧
      (∀ f ∈ ([[1]] : List (List Nat)), f ≠ []) ∧
      (List.replicate 16 (255 : Nat)).length = 16 ∧
      (toLowerStr ((fun _ => "00000000000000000000000000000000") ([[1]] : List (List Nat)).join) ≠
        toLowerStr (toHexLower (List.replicate 16 255)))) ∧
    (readFlashRun (fun _ => "00000000000000000000000000000000") 1 2 ⟨[], 0⟩
        ([[1]] ++ [List.replicate 16 255]) =
      some (Except.error
        ("MD5 mismatch! Expected: " ++ toHexLower (List.replicate 16 255) ++ ", Got: " ++
          (fun _ => "00000000000000000000000000000000") ([[1]] : List (List Nat)).join)) ∧
    ∀ v, readFlashRun (fun _ => "00000000000000000000000000000000") 1 2 ⟨[], 0⟩
        ([[1]] ++ [List.replicate 16 255]) ≠ some (Except.ok v)) :=
  ⟨⟨by decide, by decide, by decide, by decide⟩,
    C9_readFlash_md5_mismatch _ 1 2 [[1]] (List.replicate 16 255)
      (by decide) (by decide) (by decide) (by decide)⟩

/-! Claim C5: firmware image checksum. -/

theorem padTo15_bound (fuel off : Nat) (h : 15 - off % 16 < fuel) :
    off ≤ padTo15 fuel off ∧ padTo15 fuel off % 16 = 15 ∧
      padTo15 fuel off ≤ off + (15 - off % 16) := by
  induction fuel generalizing off with
  | zero => omega
  | succ f ih =>
    rw [show padTo15 (f + 1) off =
      if off % 16 = 15 then off else padTo15 f (off + 1) from rfl]
    by_cases h15 : off % 16 = 15
    · rw [if_pos h15]; omega
    · rw [if_neg h15]
      have hstep := ih (off + 1) (by omega)
      omega

theorem rangeMap_getD (n : Nat) (f : Nat → Nat) (l : List Nat) (hn : l.length = n)
    (hf : ∀ j < n, f j = l.getD j 0) : (List.range n).map f = l := by
  apply List.ext_getElem
  · simp [hn]
  · intro i h1 h2
    simp only [List.getElem_map, List.getElem_range]
    rw [hf i (by simpa using h1)]
    rw [List.getD_eq_getElem?_getD, List.getElem?_eq_getElem h2]
    rfl

theorem getU32le_of_parts (img : List Nat) (off n : Nat) (hn : n < 4294967296)
    (h0 : getU8 img off = n % 256) (h1 : getU8 img (off + 1) = n / 256 % 256)
    (h2 : getU8 img (off + 2) = n / 65536 % 256)
    (h3 : getU8 img (off + 3) = n / 16777216 % 256) :
    getU32le img off = n := by
  unfold getU32le
  rw [h0, h1, h2, h3]
  omega

theorem segBytes_length (s : Nat × List Nat) :
    (segBytes s).length = 8 + s.2.length := by
  simp [segBytes, u32leBytes]
  omega

theorem segsBytes_cons_length (s : Nat × List Nat) (t : List (Nat × List Nat)) :
    (segsBytes (s :: t)).length = 8 + s.2.length + (segsBytes t).length := by
  show (segBytes s ++ segsBytes t).length = _
  rw [List.length_append, segBytes_length]

theorem segBytes_getD_hdr (la : Nat) (p : List Nat) (k : Nat) (hk : k < 4) :
    (segBytes (la, p)).getD (4 + k) 0 = (u32leBytes p.length).getD k 0 := by
  show ((u32leBytes la ++ u32leBytes p.length) ++ p).getD (4 + k) 0 = _
  rw [List.getD_append _ _ _ _ (by simp [u32leBytes]; omega)]
  rw [List.getD_append_right _ _ _ _ (by simp [u32leBytes])]
  congr 1
  simp [u32leBytes]

theorem segBytes_getD_payload (la : Nat) (p : List Nat) (j : Nat) (hj : j < p.length) :
    (segBytes (la, p)).getD (8 + j) 0 = p.getD j 0 := by
  show ((u32leBytes la ++ u32leBytes p.length) ++ p).getD (8 + j) 0 = _
  rw [List.getD_append_right _ _ _ _ (by simp [u32leBytes])]
  congr 1
  simp [u32leBytes]

theorem segsBytes_cons_getD (s : Nat × List Nat) (t : List (Nat × List Nat))
    (j : Nat) (hj : j < (segBytes s).length) :
    (segsBytes (s :: t)).getD j 0 = (segBytes s).getD j 0 := by
  show (segBytes s ++ segsBytes t).getD j 0 = _
  rw [List.getD_append _ _ _ _ hj]

theorem segsBytes_cons_getD_right (s : Nat × List Nat) (t : List (Nat × List Nat))
    (j : Nat) :
    (segsBytes (s :: t)).getD ((segBytes s).length + j) 0 = (segsBytes t).getD j 0 := by
  show (segBytes s ++ segsBytes t).getD ((segBytes s).length + j) 0 = _
  rw [List.getD_append_right _ _ _ _ (by omega)]
  congr 1
  omega

theorem checksumSegLoop_layout (img : List Nat) (maxOffset : Nat)
    (segs : List (Nat × List Nat)) (co checksum : Nat)
    (hlayout : ∀ j < (segsBytes segs).length,
      getU8 img (co + j) = (segsBytes segs).getD j 0)
    (hmax : co + (segsBytes segs).length ≤ maxOffset)
    (hlens : ∀ s ∈ segs, s.2.length ≤ 0x1000000) :
    checksumSegLoop img maxOffset segs.length co checksum =
      Except.ok (co + (segsBytes segs).length,
        ((segs.map Prod.snd).join).foldl Nat.xor checksum) := by
  induction segs generalizing co checksum with
  | nil => simp [checksumSegLoop, segsBytes]
  | cons s t ih =>
    obtain ⟨la, p⟩ := s
    have hplen : p.length ≤ 0x1000000 := hlens (la, p) (List.mem_cons_self _ _)
    have hsblen : (segsBytes ((la, p) :: t)).length =
        8 + p.length + (segsBytes t).length := segsBytes_cons_length (la, p) t
    have hseglen : (segBytes (la, p)).length = 8 + p.length := segBytes_length _
    have hlen4 : getU32le img (co + 4) = p.length := by
      apply getU32le_of_parts img (co + 4) p.length (by omega)
      · rw [show co + 4 = co + (4 + 0) by ring, hlayout (4 + 0) (by omega),
          segsBytes_cons_getD _ _ _ (by omega), segBytes_getD_hdr la p 0 (by omega)]
        simp [u32leBytes]
      · rw [show co + 4 + 1 = co + (4 + 1) by ring, hlayout (4 + 1) (by omega),
          segsBytes_cons_getD _ _ _ (by omega), segBytes_getD_hdr la p 1 (by omega)]
        simp [u32leBytes]
      · rw [show co + 4 + 2 = co + (4 + 2) by ring, hlayout (4 + 2) (by omega),
          segsBytes_cons_getD _ _ _ (by omega), segBytes_getD_hdr la p 2 (by omega)]
        simp [u32leBytes]
      · rw [show co + 4 + 3 = co + (4 + 3) by ring, hlayout (4 + 3) (by omega),
          segsBytes_cons_getD _ _ _ (by omega), segBytes_getD_hdr la p 3 (by omega)]
        simp [u32leBytes]
    show checksumSegLoop img maxOffset (t.length + 1) co checksum = _
    simp only [checksumSegLoop]
    rw [hlen4]
    rw [if_neg (by omega)]
    rw [if_neg (by omega)]
    have hpay : (List.range p.length).map (fun j => getU8 img (co + 8 + j)) = p := by
      apply rangeMap_getD _ _ _ rfl
      intro j hj
      rw [show co + 8 + j = co + (8 + j) by ring, hlayout (8 + j) (by omega),
        segsBytes_cons_getD _ _ _ (by omega), segBytes_getD_payload la p j hj]
    rw [hpay]
    have hrec := ih (co + 8 + p.length) (p.foldl Nat.xor checksum)
      (fun j hjl => by
        rw [show co + 8 + p.length + j = co + ((segBytes (la, p)).length + j) by omega]
        rw [hlayout ((segBytes (la, p)).length + j) (by omega)]
        exact segsBytes_cons_getD_right _ _ _)
      (by omega)
      (fun u hu => hlens u (List.mem_cons_of_mem _ hu))
    rw [hrec]
    have h1 : co + 8 + p.length + (segsBytes t).length =
        co + (segsBytes ((la, p) :: t)).length := by omega
    have h2 : ((t.map Prod.snd).join).foldl Nat.xor (p.foldl Nat.xor checksum) =
        (((la, p) :: t).map Prod.snd).join.foldl Nat.xor checksum := by
      rw [show (((la, p) :: t).map Prod.snd).join = p ++ (t.map Prod.snd).join from by
        simp]
      rw [List.foldl_append]
    rw [h1, h2]

theorem foldl_xor_lt_256 (l : List Nat) : ∀ c : Nat, c < 256 →
    (∀ b ∈ l, b < 256) → l.foldl Nat.xor c < 256 := by
  induction l with
  | nil => intro c hc _; exact hc
  | cons b t ih =>
    intro c hc hl
    rw [List.foldl_cons]
    exact ih _ (Nat.xor_lt_two_pow (n := 8) hc (hl b (List.mem_cons_self _ _)))
      (fun u hu => hl u (List.mem_cons_of_mem _ hu))

/-- C5: calculateImageChecksum on a well-formed firmware image (magic byte
0xE9, valid segment headers) returns the XOR of all segment payload bytes
only (image header and per-segment headers excluded) seeded with 0xEF, and
reports the checksum location as the first offset greater than or equal to
the end of the last segment satisfying offset % 16 == 15. -/
theorem C5_calculateImageChecksum (segs : List (Nat × List Nat))
    (hcount : segs.length < 256)
    (hlens : ∀ s ∈ segs, s.2.length ≤ 0x1000000)
    (hbytes : ∀ s ∈ segs, ∀ b ∈ s.2, b < 256) :
    calculateImageChecksum (imageOfSegments segs) 0 none =
      Except.ok (((segs.map Prod.snd).join).foldl Nat.xor 0xEF,
        padTo15 16 (24 + (segsBytes segs).length)) ∧
    24 + (segsBytes segs).length ≤ padTo15 16 (24 + (segsBytes segs).length) ∧
    padTo15 16 (24 + (segsBytes segs).length) % 16 = 15 ∧
    (∀ o, 24 + (segsBytes segs).length ≤ o → o % 16 = 15 →
      padTo15 16 (24 + (segsBytes segs).length) ≤ o) := by
  have himg : imageOfSegments segs =
      [0xE9, segs.length] ++ (List.replicate 22 0 ++ segsBytes segs) := rfl
  have hlen : (imageOfSegments segs).length = 24 + (segsBytes segs).length := by
    rw [himg]
    simp only [List.length_append, List.length_cons, List.length_replicate,
      List.length_nil]
    omega
  have hmagic : getU8 (imageOfSegments segs) 0 = 0xE9 := rfl
  have hcnt : getU8 (imageOfSegments segs) 1 = segs.length := rfl
  have hlayout : ∀ j < (segsBytes segs).length,
      getU8 (imageOfSegments segs) (24 + j) = (segsBytes segs).getD j 0 := by
    intro j hj
    show (imageOfSegments segs).getD (24 + j) 0 = _
    rw [himg]
    rw [List.getD_append_right _ _ _ _ (by simp; omega)]
    rw [show 24 + j - ([0xE9, segs.length] : List Nat).length = 22 + j from by
      simp; omega]
    rw [List.getD_append_right _ _ _ _ (by simp)]
    congr 1
    simp
  have hloop := checksumSegLoop_layout (imageOfSegments segs)
    (imageOfSegments segs).length segs 24 0xEF
    (fun j hj => hlayout j hj) (by omega) hlens
  have hmask : ((segs.map Prod.snd).join).foldl Nat.xor 0xEF % 256 =
      ((segs.map Prod.snd).join).foldl Nat.xor 0xEF := by
    apply Nat.mod_eq_of_lt
    apply foldl_xor_lt_256 _ _ (by omega)
    intro b hb
    rcases List.mem_join.mp hb with ⟨l, hl, hbl⟩
    rcases List.mem_map.mp hl with ⟨s, hs, rfl⟩
    exact hbytes s hs b hbl
  have hpad := padTo15_bound 16 (24 + (segsBytes segs).length) (by omega)
  refine ⟨?_, by omega, by omega, ?_⟩
  · unfold calculateImageChecksum
    simp only [Nat.zero_add]
    rw [if_neg (by rw [hmagic]; omega)]
    rw [hcnt]
    rw [hloop]
    dsimp only
    rw [hmask]
  · intro o ho1 ho2
    omega


/-- C5, witness: the image with segment payloads [0x01, 0x02] and [0x03]
has checksum 0xEF xor 0x01 xor 0x02 xor 0x03 (the scenario of the
specification), located at offset 47 (segments end at 43). -/
theorem C5_witness :
    (([(0, [1, 2]), (0, [3])] : List (Nat × List Nat)).length < 256 ∧
      (∀ s ∈ ([(0, [1, 2]), (0, [3])] : List (Nat × List Nat)), s.2.length ≤ 0x1000000) ∧
      (∀ s ∈ ([(0, [1, 2]), (0, [3])] : List (Nat × List Nat)), ∀ b ∈ s.2, b < 256)) ∧
    calculateImageChecksum (imageOfSegments [(0, [1, 2]), (0, [3])]) 0 none =
      Except.ok (0xEF ^^^ 0x01 ^^^ 0x02 ^^^ 0x03, 47) := by
  refine ⟨⟨by decide, by decide, by decide⟩, ?_⟩
  have h := (C5_calculateImageChecksum [(0, [1, 2]), (0, [3])]
    (by decide) (by decide) (by decide)).1
  rw [h]
  rfl

/-! Claim C3: effective byte and the no-callback fill value. -/

theorem effP_addSegment_zero (rb : List Segment) (hsr : Separated rb)
    (a gz p : Nat)
    (hP : findSegment p rb = none ∨ ∃ s, findSegment p rb = some s ∧ s.val p = 0) :
    findSegment p (addSegment rb a (List.replicate gz 0)) = none ∨
      ∃ s, findSegment p (addSegment rb a (List.replicate gz 0)) = some s ∧
        s.val p = 0 := by
  have hag : ∀ s ∈ rb ++ [Segment.mk a (List.replicate gz 0)],
      s.covers p = true → s.val p = 0 := by
    intro s hs hc
    rcases List.mem_append.mp hs with hs2 | hs2
    · have hfind := findSegment_eq_of_sep hsr hs2 hc
      rcases hP with hnone | ⟨s2, hsome, hval⟩
      · rw [hfind] at hnone; exact absurd hnone (by simp)
      · rw [hfind] at hsome
        injection hsome with h2
        rw [← h2] at hval
        exact hval
    · have : s = Segment.mk a (List.replicate gz 0) := by simpa using hs2
      rw [this]
      exact getD_replicate_zero _ _
  cases hf : findSegment p (addSegment rb a (List.replicate gz 0)) with
  | none => exact Or.inl rfl
  | some s2 =>
    obtain ⟨hm, hc⟩ := findSegment_some hf
    exact Or.inr ⟨s2, rfl, mergeSegmentsGeneric_val _ p 0 hag s2 hm hc⟩

theorem ensureLoop_none_spec (address size : Nat) :
    ∀ (fuel : Nat) (img : SparseImage), Separated img.readBuffer →
      (ensureLoop none address size fuel img).size = img.size ∧
      (ensureLoop none address size fuel img).writeBuffer = img.writeBuffer ∧
      Separated (ensureLoop none address size fuel img).readBuffer ∧
      (∀ p, (findSegment p img.readBuffer = none ∨
          ∃ s, findSegment p img.readBuffer = some s ∧ s.val p = 0) →
        (findSegment p (ensureLoop none address size fuel img).readBuffer = none ∨
          ∃ s, findSegment p (ensureLoop none address size fuel img).readBuffer = some s ∧
            s.val p = 0)) := by
  intro fuel
  induction fuel with
  | zero => exact fun img hsep => ⟨rfl, rfl, hsep, fun p hp => hp⟩
  | succ f ih =>
    intro img hsep
    rw [show ensureLoop none address size (f + 1) img =
      if coveredAnyFrom img.writeBuffer img.readBuffer address (address + size) then img
      else
        match findFirstGapRange img.writeBuffer img.readBuffer address (address + size) with
        | none => img
        | some (gapStart, gapSize) =>
          if gapSize = 0 then img
          else ensureLoop none address size f
            { img with readBuffer :=
                addSegment img.readBuffer gapStart (List.replicate gapSize 0) }
      from rfl]
    split
    · exact ⟨rfl, rfl, hsep, fun p hp => hp⟩
    · split
      · exact ⟨rfl, rfl, hsep, fun p hp => hp⟩
      · rename_i gap gapStart gapSize hgap
        split
        · exact ⟨rfl, rfl, hsep, fun p hp => hp⟩
        · have hsep2 : Separated (addSegment img.readBuffer gapStart
              (List.replicate gapSize 0)) := mergeSegmentsGeneric_sep _
          obtain ⟨h1, h2, h3, h4⟩ := ih
            { img with readBuffer :=
                addSegment img.readBuffer gapStart (List.replicate gapSize 0) } hsep2
          refine ⟨h1, h2, h3, fun p hp => ?_⟩
          exact h4 p (effP_addSegment_zero img.readBuffer hsep gapStart gapSize p hp)

/-- C3, counterexample: on an empty 16-byte image with no read callback,
ensureCached(0, 4) fills the gap with a zero segment (not 0xFF), and the
subsequent read of the previously-uncovered address 0 yields 0, not the
erased-flash sentinel 0xFF as the claim states. -/
theorem C3_counterexample :
    ensureDataUnlocked none ⟨16, 4096, [], []⟩ 0 4 =
      Except.ok ⟨16, 4096, [⟨0, [0, 0, 0, 0]⟩], []⟩ ∧
    getByte ⟨16, 4096, [⟨0, [0, 0, 0, 0]⟩], []⟩ 0 = 0 ∧ (0 : Nat) ≠ 0xFF := by
  refine ⟨?_, by decide, by decide⟩
  unfold ensureDataUnlocked
  rw [if_pos (by decide)]
  congr 1

/-- C3, amended: _effectiveByte returns the erased-flash sentinel 0xFF for
an in-bounds address covered by no write segment and no read segment, and a
covering write segment takes priority over any read segment; however, when
no read callback is configured, _ensureDataUnlocked fills each uncovered
gap with a zero-filled segment (not 0xFF), and a subsequent _get of a
previously-uncovered in-range address returns 0x00 (also the default _get
returns for still-uncovered data), not 0xFF. -/
theorem C3_effective_byte (img : SparseImage) :
    (∀ p, findSegment p img.writeBuffer = none →
      findSegment p img.readBuffer = none → effectiveByte img p = 0xFF) ∧
    (∀ p w, findSegment p img.writeBuffer = some w →
      effectiveByte img p = w.val p % 256) ∧
    (∀ address size img2 p, Separated img.readBuffer →
      ensureDataUnlocked none img address size = Except.ok img2 →
      p < img.size →
      findSegment p img.writeBuffer = none →
      findSegment p img.readBuffer = none →
      getByte img2 p = 0) := by
  refine ⟨?_, ?_, ?_⟩
  · intro p hw hr
    unfold effectiveByte
    rw [hw, hr]
  · intro p w hw
    unfold effectiveByte
    rw [hw]
  · intro address size img2 p hsep hok hlt hw hr
    unfold ensureDataUnlocked at hok
    by_cases hb : address < img.size
    · rw [if_pos hb] at hok
      injection hok with himg2
      obtain ⟨h1, h2, h3, h4⟩ := ensureLoop_none_spec address
        (min size (img.size - address)) 64 img hsep
      rw [← himg2] at *
      have hP := h4 p (Or.inl hr)
      unfold getByte get
      rw [if_pos (by rw [h1]; exact hlt)]
      rw [h2, hw]
      rcases hP with hnone | ⟨s, hsome, hval⟩
      · rw [hnone]
        rfl
      · rw [hsome]
        show s.val p = 0
        exact hval
    · rw [if_neg hb] at hok
      exact absurd hok (by simp)


/-! Claim C2: write/read round-trip through the sparse cache. -/

/-- C2, counterexample: the round-trip does not hold regardless of the
prior cache state.  With a read segment [5, 6] at address 0 and a stale
write segment [9] at address 1, writing the bytes [5, 6] at address 0 is
skipped entirely (case 2 of the staging loop compares the desired bytes
against the READ cache only and jumps over the stale write segment), so a
subsequent cached read of [0, 2) returns [5, 9], not the written [5, 6]. -/
theorem C2_counterexample :
    subarrayAsync none
        (write ⟨8192, 4096, [⟨0, [5, 6]⟩], [⟨1, [9]⟩]⟩ 0 [5, 6]) 0 (0 + 2) =
      Except.ok (write ⟨8192, 4096, [⟨0, [5, 6]⟩], [⟨1, [9]⟩]⟩ 0 [5, 6], [5, 9]) ∧
    ([5, 9] : List Nat) ≠ [5, 6] ∧
    Separated [Segment.mk 0 [5, 6]] ∧ Separated [Segment.mk 1 [9]] ∧
    0 + 2 ≤ 8192 := by
  refine ⟨rfl, by decide, by decide, by decide, by decide⟩

/-- C2, amended: the round-trip holds provided no pending write segment
overlaps the target range before the call (in particular whenever the
write buffer is empty there).  For every read callback, SparseImage with
separated buffers, address A and non-empty byte list B with
A + len(B) <= size whose write buffer does not cover any address of
[A, A+len(B)), writing B at A and then reading [A, A+len(B)) through
subarray_async returns exactly B, and the ensure step leaves the image as
write left it. -/
theorem C2_write_roundtrip (cb : Option ReadCb) (img : SparseImage) (A : Nat)
    (B : List Nat) (hne : B ≠ []) (hb : ∀ b ∈ B, b < 256)
    (hbound : A + B.length ≤ img.size)
    (hsr : Separated img.readBuffer) (hsw : Separated img.writeBuffer)
    (hnw : ∀ s ∈ img.writeBuffer, ∀ p, A ≤ p → p < A + B.length →
      s.covers p = false) :
    subarrayAsync cb (write img A B) A (A + B.length) =
      Except.ok (write img A B, B) := by
  have hlen0 : 0 < B.length := List.length_pos.mpr hne
  obtain ⟨hsep2, hval⟩ := write_effVal img A B hne hb hbound hsr hsw hnw
  have hsz : (write img A B).size = img.size := write_size img A B
  have hrb : (write img A B).readBuffer = img.readBuffer := write_readBuffer img A B
  have hcov : coveredAnyFrom (write img A B).writeBuffer (write img A B).readBuffer
      A (A + B.length) = true := by
    unfold coveredAnyFrom
    apply coveredAnyFromAux_of_pointwise
    · exact Nat.le_refl _
    · intro q hq1 hq2
      have hv := hval q hq1 hq2
      unfold effVal at hv
      cases hw : findSegment q (write img A B).writeBuffer with
      | some w => exact Or.inl rfl
      | none =>
        rw [hw] at hv
        cases hr : findSegment q img.readBuffer with
        | some r => exact Or.inr (by rw [hrb, hr]; rfl)
        | none => rw [hr] at hv; exact absurd hv (by simp)
  have hgb : ∀ j, j < B.length → getByte (write img A B) (A + j) = B.getD j 0 := by
    intro j hj
    have hv := hval (A + j) (by omega) (by omega)
    rw [show A + j - A = j from by omega] at hv
    rw [← hrb] at hv
    exact getByte_of_effVal (write img A B) (A + j) (B.getD j 0) (by omega) hv
  unfold subarrayAsync ensureDataUnlocked
  rw [if_pos (show A < (write img A B).size from by omega)]
  rw [show min (A + B.length - A) ((write img A B).size - A) = B.length from by omega]
  rw [ensureLoop_covered cb A B.length 64 (by norm_num) (write img A B) hcov]
  dsimp only
  rw [show A + B.length - A = B.length from by omega]
  rw [rangeMap_getD B.length (fun i => getByte (write img A B) (A + i)) B rfl
    (fun j hj => hgb j hj)]

/-- C2, witness: the amended round-trip at a concrete input — writing
[1, 2] at address 0 of an empty 4096-byte image and reading it back. -/
theorem C2_write_roundtrip_witness :
    (([1, 2] : List Nat) ≠ []) ∧ (∀ b ∈ ([1, 2] : List Nat), b < 256) ∧
    0 + ([1, 2] : List Nat).length ≤ (4096 : Nat) ∧
    Separated ([] : List Segment) ∧
    (∀ s ∈ ([] : List Segment), ∀ p, 0 ≤ p → p < 0 + ([1, 2] : List Nat).length →
      s.covers p = false) ∧
    subarrayAsync none (write ⟨4096, 4096, [], []⟩ 0 [1, 2]) 0
        (0 + ([1, 2] : List Nat).length) =
      Except.ok (write ⟨4096, 4096, [], []⟩ 0 [1, 2], [1, 2]) :=
  ⟨by decide, by decide, by decide, by decide, by decide,
    C2_write_roundtrip none ⟨4096, 4096, [], []⟩ 0 [1, 2] (by decide) (by decide)
      (by decide) (by decide) (by decide) (by decide)⟩

/-! Claim C6: pruning of no-op writes over a fully cached block. -/

/-- C6, counterexample: with granularity 4, read segment [1, 2, 3, 4] fully
covering the block [0, 4) and a stale write segment [9] at address 1,
writing the cached bytes [1, 2, 3, 4] at the block start is skipped wholesale
by case 2 of the staging loop (it compares against the read cache only and
never marks a touched sector), so the stale write segment [9] still overlaps
the block after the call — a pending write segment remains. -/
theorem C6_counterexample :
    effSectorSize ⟨8192, 4, [⟨0, [1, 2, 3, 4]⟩], [⟨1, [9]⟩]⟩ = 4 ∧
    coveredFrom [Segment.mk 0 [1, 2, 3, 4]] 0 (0 + 4) = true ∧
    materializeReadRange [Segment.mk 0 [1, 2, 3, 4]] 0 (0 + 4) = [1, 2, 3, 4] ∧
    (write ⟨8192, 4, [⟨0, [1, 2, 3, 4]⟩], [⟨1, [9]⟩]⟩ 0
        [1, 2, 3, 4]).writeBuffer = [⟨1, [9]⟩] ∧
    (Segment.mk 1 [9]).covers 1 = true ∧ 0 ≤ 1 ∧ 1 < 0 + 4 := by
  decide

/-- C6, amended: the pruning property holds provided no pending
write-segment overlaps the block before the call.  For every SparseImage
with separated buffers whose read-segment data is byte-valued, every
in-bounds block [bs, bs + granularity) fully covered by read segments and
overlapped by no write segment, writing the cached read bytes of the block
leaves no write segment overlapping the block (the staging loop skips the
matching bytes and stages nothing new). -/
theorem C6_write_pruning (img : SparseImage) (bs : Nat)
    (hsr : Separated img.readBuffer) (hsw : Separated img.writeBuffer)
    (hrbb : ∀ s ∈ img.readBuffer, ∀ b ∈ s.data, b < 256)
    (hbound : bs + effSectorSize img ≤ img.size)
    (hcov : coveredFrom img.readBuffer bs (bs + effSectorSize img) = true)
    (hnw : ∀ s ∈ img.writeBuffer, ∀ p, bs ≤ p → p < bs + effSectorSize img →
      s.covers p = false) :
    ∀ s ∈ (write img bs (materializeReadRange img.readBuffer bs
        (bs + effSectorSize img))).writeBuffer,
      ∀ p, bs ≤ p → p < bs + effSectorSize img → s.covers p = false := by
  have hssp : 0 < effSectorSize img := effSectorSize_pos img
  have hBlen : (materializeReadRange img.readBuffer bs
      (bs + effSectorSize img)).length = effSectorSize img := by
    rw [materializeReadRange_length]
    omega
  have hne : materializeReadRange img.readBuffer bs (bs + effSectorSize img) ≠ [] :=
    List.length_pos.mp (by omega)
  have hb := materializeReadRange_lt_256 img.readBuffer hsr hrbb bs
    (bs + effSectorSize img)
  have hwbeq := write_wb_eq img bs
    (materializeReadRange img.readBuffer bs (bs + effSectorSize img)) hne hb (by omega)
  have hpt := coveredFrom_pointwise img.readBuffer bs (bs + effSectorSize img) hcov
  have hskip := writeLoop_skip img.readBuffer hsr (effSectorSize img) img.size bs
    (bs + (materializeReadRange img.readBuffer bs (bs + effSectorSize img)).length)
    (materializeReadRange img.readBuffer bs (bs + effSectorSize img))
    (bs + (materializeReadRange img.readBuffer bs
      (bs + effSectorSize img)).length - bs)
    ⟨img.writeBuffer, [], bs⟩
    (Nat.le_refl bs)
    (fun p hp1 hp2 => hpt p hp1 (by
      have hx : p < bs + (materializeReadRange img.readBuffer bs
        (bs + effSectorSize img)).length := hp2
      omega))
    (by
      intro p hp1 hp2 c hcf
      have hp1x : bs ≤ p := hp1
      have hp2x : p < bs + effSectorSize img := by
        have hx : p < bs + (materializeReadRange img.readBuffer bs
          (bs + effSectorSize img)).length := hp2
        omega
      have hmg := materializeReadRange_getD img.readBuffer hsr bs
        (bs + effSectorSize img) p hp1x hp2x
      rw [hcf] at hmg
      dsimp only at hmg
      obtain ⟨hm, hcc⟩ := findSegment_some hcf
      rw [covers_iff] at hcc
      have hstop : c.stop = c.address + c.data.length := rfl
      have hidx : p - c.address < c.data.length := by omega
      have hlt : c.data.getD (p - c.address) 0 < 256 :=
        getD_lt_256 _ _ hidx (hrbb c hm)
      rw [hmg]
      rw [show c.val p = c.data.getD (p - c.address) 0 from rfl]
      rw [Nat.mod_eq_of_lt hlt])
    (fun s hs p hp1 hp2 => hnw s hs p hp1 (by
      have hx : p < bs + (materializeReadRange img.readBuffer bs
        (bs + effSectorSize img)).length := hp2
      omega))
  intro s hs p hp1 hp2
  rw [hwbeq, hskip] at hs
  dsimp only at hs
  rw [List.foldl_nil] at hs
  cases hv : s.covers p with
  | false => rfl
  | true =>
    obtain ⟨s0, hs0, hc0⟩ :=
      (mergeSegmentsGeneric_cov img.writeBuffer p).mp ⟨s, hs, hv⟩
    rw [hnw s0 hs0 p hp1 hp2] at hc0
    exact absurd hc0 (by simp)

/-- C6, witness: the amended theorem on a concrete image — granularity 4,
read segment [1, 2, 3, 4] covering block [0, 4), empty write buffer. -/
theorem C6_write_pruning_witness :
    Separated [Segment.mk 0 [1, 2, 3, 4]] ∧ Separated ([] : List Segment) ∧
    (∀ s ∈ [Segment.mk 0 [1, 2, 3, 4]], ∀ b ∈ s.data, b < 256) ∧
    0 + effSectorSize ⟨4096, 4, [⟨0, [1, 2, 3, 4]⟩], []⟩ ≤ 4096 ∧
    coveredFrom [Segment.mk 0 [1, 2, 3, 4]] 0
      (0 + effSectorSize ⟨4096, 4, [⟨0, [1, 2, 3, 4]⟩], []⟩) = true ∧
    (∀ s ∈ (write ⟨4096, 4, [⟨0, [1, 2, 3, 4]⟩], []⟩ 0
        (materializeReadRange [Segment.mk 0 [1, 2, 3, 4]] 0
          (0 + effSectorSize ⟨4096, 4, [⟨0, [1, 2, 3, 4]⟩], []⟩))).writeBuffer,
      ∀ p, 0 ≤ p → p < 0 + effSectorSize ⟨4096, 4, [⟨0, [1, 2, 3, 4]⟩], []⟩ →
        s.covers p = false) :=
  ⟨by decide, by decide, by decide, by decide, by decide,
    C6_write_pruning ⟨4096, 4, [⟨0, [1, 2, 3, 4]⟩], []⟩ 0 (by decide) (by decide)
      (by decide) (by decide) (by decide) (by decide)⟩

end ESP32

